import Mathlib

/-!
Verification development for the project generator of
create-pwa-boilerplate (src/generator.ts, src/types.ts).

Strings are modelled as lists of characters.  JavaScript
String.prototype.replace with a global literal regex (all the regexes in
the source are escaped literals) is modelled by replaceAllL: leftmost,
non-overlapping matches, the replacement text is not rescanned.  With a
plain string pattern, JS replace rewrites only the first occurrence;
this is modelled by replaceFirstL.  JS gives dollar sequences inside
the replacement string a special meaning; that is not modelled, so the
theorems that quantify over configurations assume the replacement
values contain no dollar character, under which both semantics agree.

The filesystem under the destination directory is modelled as an
association list from relative paths to file contents.  Directories are
represented implicitly: a directory exists when some file lives below
it (the generator only ever observes directories through readdirSync).
The source applies "replace(\".ejs\", \"\")" to the absolute joined
path; paths are modelled relative to the destination, which is faithful
whenever the destination prefix itself contains no ".ejs".
-/

/-- src/types.ts: the supported frontend frameworks. -/
inductive Framework where
  | react
  | vue
  | svelte
deriving DecidableEq

/-- src/types.ts: the display modes available for the PWA manifest. -/
inductive PwaDisplayMode where
  | standalone
  | fullscreen
  | minimalUi
  | browser
deriving DecidableEq

/-- The string value of a display mode (the TS type is a string union). -/
def PwaDisplayMode.text : PwaDisplayMode → List Char
  | .standalone => "standalone".toList
  | .fullscreen => "fullscreen".toList
  | .minimalUi => "minimal-ui".toList
  | .browser => "browser".toList

/-- src/types.ts: PWA-specific metadata gathered from the user. -/
structure PwaMetadata where
  name : List Char
  shortName : List Char
  themeColor : List Char
  backgroundColor : List Char
  displayMode : PwaDisplayMode
  iconPath : List Char
deriving DecidableEq

/-- src/types.ts: the final configuration object. -/
structure PWAConfig where
  projectName : List Char
  framework : Framework
  useTailwind : Bool
  pwa : PwaMetadata
deriving DecidableEq

/-- Fuel-driven core of replaceAllL; the fuel is always at least the
length of the string, and each step consumes at least one character. -/
def replaceAllAux (pat repl : List Char) : Nat → List Char → List Char
  | 0, s => s
  | _ + 1, [] => []
  | fuel + 1, c :: rest =>
    if pat.isPrefixOf (c :: rest) ∧ pat ≠ [] then
      repl ++ replaceAllAux pat repl fuel (rest.drop (pat.length - 1))
    else
      c :: replaceAllAux pat repl fuel rest

/-- JS content.replace(/pat/g, repl) for a literal pattern: every
leftmost non-overlapping occurrence is replaced, the replacement is not
rescanned. -/
def replaceAllL (pat repl s : List Char) : List Char :=
  replaceAllAux pat repl s.length s

/-- JS content.replace(pat, repl) for a string pattern: only the first
occurrence is replaced. -/
def replaceFirstL (pat repl : List Char) : List Char → List Char
  | [] => []
  | c :: rest =>
    if pat.isPrefixOf (c :: rest) ∧ pat ≠ [] then
      repl ++ rest.drop (pat.length - 1)
    else
      c :: replaceFirstL pat repl rest

/-- Whether pat occurs as a contiguous substring. -/
def occursB (pat : List Char) : List Char → Bool
  | [] => pat.isEmpty
  | c :: rest => pat.isPrefixOf (c :: rest) || occursB pat rest

/-- Fuel-driven core of countOcc. -/
def countOccAux (pat : List Char) : Nat → List Char → Nat
  | 0, _ => 0
  | _ + 1, [] => 0
  | fuel + 1, c :: rest =>
    if pat.isPrefixOf (c :: rest) ∧ pat ≠ [] then
      1 + countOccAux pat fuel (rest.drop (pat.length - 1))
    else
      countOccAux pat fuel rest

/-- Number of leftmost non-overlapping occurrences of pat, i.e. the
number of rewrites a global JS replace performs. -/
def countOcc (pat s : List Char) : Nat :=
  countOccAux pat s.length s

/-- Some position strictly below the min of the two lengths carries
different characters; then the first list can never be a prefix of the
second followed by anything. -/
def divergeB : List Char → List Char → Bool
  | a :: as, b :: bs => (a != b) || divergeB as bs
  | _, _ => false

/-- No occurrence of pat inside a ++ pat ++ b starts strictly before
the end of a (so the occurrence at position a.length is the first). -/
def noEarlyOcc (pat b : List Char) : List Char → Bool
  | [] => true
  | c :: a => !(pat.isPrefixOf (c :: (a ++ pat ++ b))) && noEarlyOcc pat b a

/-- Interpolation token for pwa.name (generator.ts line 48). -/
def tokPwaName : List Char := "<%= pwa.name %>".toList

/-- Interpolation token for pwa.shortName. -/
def tokPwaShortName : List Char := "<%= pwa.shortName %>".toList

/-- Interpolation token for pwa.themeColor. -/
def tokPwaThemeColor : List Char := "<%= pwa.themeColor %>".toList

/-- Interpolation token for pwa.backgroundColor. -/
def tokPwaBackgroundColor : List Char := "<%= pwa.backgroundColor %>".toList

/-- Interpolation token for pwa.displayMode. -/
def tokPwaDisplayMode : List Char := "<%= pwa.displayMode %>".toList

/-- The useTailwind interpolation token named by the spec. -/
def tokUseTailwind : List Char := "<%= useTailwind %>".toList

/-- Apostrophe character (used inside one registry snippet). -/
def apos : Char := Char.ofNat 39

def markReactImports : List Char := "// tailwindCSSImportsPlaceholder".toList

def markReactPackage : List Char := "// tailwindCSSPackagePlaceholder".toList

def markReactVite : List Char := "// tailwindCSSViteConfig".toList

def markReactViteFn : List Char := "// tailwindCSSFunctionViteConfig".toList

def markVue : List Char := "// vuePlaceholder".toList

def markSvelte : List Char := "// sveltePlaceholder".toList

def snipImports : List Char := "@import \"tailwindcss\";".toList

def snipPackage : List Char :=
  "\"@tailwindcss/vite\": \"^4.1.16\",\n    \"tailwindcss\": \"^4.1.16,".toList

def snipVite : List Char :=
  "import tailwindcss from ".toList ++ apos :: "@tailwindcss/vite".toList ++ [apos]

def snipViteFn : List Char := "tailwindcss(),".toList

/-- generator.ts templatePlaceholders: marker/snippet registry per
framework, in JS insertion order. -/
def templatePlaceholders : Framework → List (List Char × List Char)
  | .react =>
    [(markReactImports, snipImports), (markReactPackage, snipPackage),
     (markReactVite, snipVite), (markReactViteFn, snipViteFn)]
  | .vue => [(markVue, [])]
  | .svelte => [(markSvelte, [])]

/-- generator.ts processTemplate: five global regex replaces for the
pwa metadata, then one first-occurrence replace per registered marker
(snippet when useTailwind, empty string otherwise). -/
def processTemplate (content : List Char) (config : PWAConfig) : List Char :=
  let result := replaceAllL tokPwaName config.pwa.name content
  let result := replaceAllL tokPwaShortName config.pwa.shortName result
  let result := replaceAllL tokPwaThemeColor config.pwa.themeColor result
  let result := replaceAllL tokPwaBackgroundColor config.pwa.backgroundColor result
  let result := replaceAllL tokPwaDisplayMode config.pwa.displayMode.text result
  let placeholdersTemplates := templatePlaceholders config.framework
  if config.useTailwind then
    placeholdersTemplates.foldl (fun acc pr => replaceFirstL pr.1 pr.2 acc) result
  else
    placeholdersTemplates.foldl (fun acc pr => replaceFirstL pr.1 [] acc) result

/-- The six interpolation tokens, indexed; index 5 is useTailwind. -/
def toksList : List (List Char) :=
  [tokPwaName, tokPwaShortName, tokPwaThemeColor, tokPwaBackgroundColor,
   tokPwaDisplayMode, tokUseTailwind]

def tokAt (i : Fin 6) : List Char := toksList.get (Fin.cast rfl i)

/-- The configuration value each token position renders to; position 5
maps to the token text itself, because the source never substitutes the
useTailwind token. -/
def valsList (cfg : PWAConfig) : List (List Char) :=
  [cfg.pwa.name, cfg.pwa.shortName, cfg.pwa.themeColor,
   cfg.pwa.backgroundColor, cfg.pwa.displayMode.text, tokUseTailwind]

def valAt (cfg : PWAConfig) (i : Fin 6) : List Char :=
  (valsList cfg).get (Fin.cast rfl i)

/-- A template content decomposed into literal stretches and exact
token occurrences. -/
inductive Chunk where
  | plain : List Char → Chunk
  | tk : Fin 6 → Chunk
deriving DecidableEq

def Chunk.text : Chunk → List Char
  | .plain s => s
  | .tk i => tokAt i

def Chunk.subst (cfg : PWAConfig) : Chunk → List Char
  | .plain s => s
  | .tk i => valAt cfg i

def joinChunks (cs : List Chunk) : List Char := (cs.map Chunk.text).flatten

def substChunks (cfg : PWAConfig) (cs : List Chunk) : List Char :=
  (cs.map (Chunk.subst cfg)).flatten

/-- Effect of one global replace pass on a chunk. -/
def chunkStep (i : Fin 6) (v : List Char) : Chunk → Chunk
  | .plain s => .plain s
  | .tk j => if j = i then .plain v else .tk j

/-- Number of exact token-i pieces in a chunk decomposition. -/
def countTk (i : Fin 6) (cs : List Chunk) : Nat :=
  cs.countP (fun c => decide (c = Chunk.tk i))

/-- The destination tree: relative path to file content. -/
abbrev FS := List (List Char × List Char)

def lookupF : FS → List Char → Option (List Char)
  | [], _ => none
  | e :: fs, p => if e.1 = p then some e.2 else lookupF fs p

/-- fs.existsSync on a file path. -/
def existsF (fs : FS) (p : List Char) : Bool := (lookupF fs p).isSome

/-- fs.readFileSync (total model; only called under an existsF guard). -/
def readFileF (fs : FS) (p : List Char) : List Char := (lookupF fs p).getD []

/-- fs.writeFileSync: overwrite in place or append. -/
def writeF : FS → List Char → List Char → FS
  | [], p, c => [(p, c)]
  | e :: fs, p, c => if e.1 = p then (p, c) :: fs else e :: writeF fs p c

/-- fs.removeSync on a file path. -/
def removeF : FS → List Char → FS
  | [], _ => []
  | e :: fs, p => if e.1 = p then removeF fs p else e :: removeF fs p

/-- fs.renameSync. -/
def renameF (fs : FS) (oldP newP : List Char) : FS :=
  writeF (removeF fs oldP) newP (readFileF fs oldP)

/-- fs.copySync with overwrite: true, template into destination. -/
def copyF (dest tmpl : FS) : FS :=
  tmpl.foldl (fun acc e => writeF acc e.1 e.2) dest

def pathsOf (fs : FS) : List (List Char) := fs.map (fun e => e.1)

/-- The fixed component directory of generator.ts step 3. -/
def compDir : List Char := "src/components/".toList

/-- fs.readdirSync of the component directory: the names below it. -/
def componentEntries (fs : FS) : List (List Char) :=
  fs.filterMap (fun e =>
    if compDir.isPrefixOf e.1 then some (e.1.drop compDir.length) else none)

/-- Whether the component directory exists (some file lives below it). -/
def compDirExists (fs : FS) : Bool := fs.any (fun e => compDir.isPrefixOf e.1)

def ejsText : List Char := ".ejs".toList

def tailTag : List Char := ".tailwindcss".toList

def tailTsx : List Char := ".tailwindcss.tsx".toList

/-- generator.ts filesToProcess. -/
def filesToProcess : List (List Char) :=
  ["package.json.ejs", "index.html.ejs", "public/manifest.json.ejs",
   "src/index.css.ejs", "vite.config.ts.ejs"].map String.toList

/-- fullPathEjs.replace(".ejs", ""): first occurrence only. -/
def targetOf (p : List Char) : List Char := replaceFirstL ejsText [] p

/-- One iteration of the step-2 forEach: if the listed path exists,
write the processed content to the stripped sibling path and delete the
.ejs file; otherwise do nothing. -/
def processOne (cfg : PWAConfig) (fs : FS) (p : List Char) : FS :=
  if existsF fs p then
    removeF (writeF fs (targetOf p) (processTemplate (readFileF fs p) cfg)) p
  else fs

/-- generator.ts step 2 over the fixed list. -/
def substitutionPass (cfg : PWAConfig) (fs : FS) : FS :=
  filesToProcess.foldl (processOne cfg) fs

inductive GenError where
  | componentDirMissing
deriving DecidableEq

/-- generator.ts step 3: readdirSync of src/components throws when the
directory is missing; otherwise delete the .tailwindcss.tsx variants
(useTailwind false) or delete everything else and strip the tag from
the survivors (useTailwind true). -/
def resolveStyling (cfg : PWAConfig) (fs : FS) : Except GenError FS :=
  if compDirExists fs = false then .error .componentDirMissing
  else if cfg.useTailwind = false then
    let filesToRemove := (componentEntries fs).filter (fun n => tailTsx.isSuffixOf n)
    .ok (filesToRemove.foldl (fun acc n => removeF acc (compDir ++ n)) fs)
  else
    let filesToRemove := (componentEntries fs).filter (fun n => !(tailTsx.isSuffixOf n))
    let fs1 := filesToRemove.foldl (fun acc n => removeF acc (compDir ++ n)) fs
    .ok ((componentEntries fs1).foldl
      (fun acc n => renameF acc (compDir ++ n) (compDir ++ replaceFirstL tailTag [] n))
      fs1)

def installCommand : List Char := "pnpm install".toList

/-- generator.ts generateProject: copy the template, run the
substitution pass, resolve styling variants, then trigger the install
command.  The commands fired by runCommand are returned alongside the
final tree so that claims about the install trigger can be stated. -/
def generateProject (cfg : PWAConfig) (tmpl dest : FS) :
    Except GenError (FS × List (List Char)) :=
  let fs1 := copyF dest tmpl
  let fs2 := substitutionPass cfg fs1
  match resolveStyling cfg fs2 with
  | .error e => .error e
  | .ok fs3 => .ok (fs3, [installCommand])

/-- A whitespace character, for the whitespace-insensitivity claim. -/
def wsChar (c : Char) : Prop := c = ' ' ∨ c = '\t' ∨ c = '\n' ∨ c = '\r'

instance (c : Char) : Decidable (wsChar c) := by
  unfold wsChar
  infer_instance

/-- The six field paths the spec names for interpolation tokens. -/
def sixPaths : List (List Char) :=
  ["pwa.name", "pwa.shortName", "pwa.themeColor", "pwa.backgroundColor",
   "pwa.displayMode", "useTailwind"].map String.toList

def pathAt (i : Fin 6) : List Char := sixPaths.get (Fin.cast rfl i)

/-- A token-shaped string with arbitrary whitespace around the path. -/
def wsTok (p ws1 ws2 : List Char) : List Char :=
  "<%=".toList ++ (ws1 ++ (p ++ (ws2 ++ "%>".toList)))

/-- A concrete metadata record used by witnesses and counterexamples. -/
def demoPwa : PwaMetadata :=
  { name := "Demo App".toList, shortName := "Demo".toList,
    themeColor := "#112233".toList, backgroundColor := "#ffffff".toList,
    displayMode := .standalone, iconPath := "icons".toList }

def cfgReactTw : PWAConfig :=
  { projectName := "app".toList, framework := .react, useTailwind := true,
    pwa := demoPwa }

def cfgReactNoTw : PWAConfig := { cfgReactTw with useTailwind := false }

def cfgVueNoTw : PWAConfig := { cfgReactTw with framework := .vue, useTailwind := false }

def cfgSvelteNoTw : PWAConfig :=
  { cfgReactTw with framework := .svelte, useTailwind := false }

def cfgSvelteTw : PWAConfig := { cfgReactTw with framework := .svelte }

/-- The component files shipped in the svelte template tree. -/
def svelteTmpl : FS :=
  [("src/components/PwaFeaturesGrid.svelte".toList, "plain grid".toList),
   ("src/components/PwaFeaturesGrid.tailwindcss.svelte".toList, "tw grid".toList)]

/-- A small react-shaped template used by witnesses. -/
def reactDemoTmpl : FS :=
  [("package.json.ejs".toList, "a".toList),
   ("src/components/PwaFeaturesGrid.tsx".toList, "grid".toList)]

/-- The literal stretches of a chunk decomposition. -/
def plainParts (cs : List Chunk) : List (List Char) :=
  cs.filterMap (fun c => match c with | .plain s => some s | .tk _ => none)

/-- A demonstration decomposition: a repeated pwa.name token and one
useTailwind token between literal stretches. -/
def chunksDemo : List Chunk :=
  [.plain "name: ".toList, .tk 0, .plain ", again: ".toList, .tk 0,
   .plain " / tw: ".toList, .tk 5]

/-- The destination tree claim7_witness expects after materialization. -/
def fs3W : FS :=
  [("src/components/PwaFeaturesGrid.tsx".toList, "grid".toList),
   ("package.json".toList, "a".toList)]

/-- A template with a processable file and no component directory. -/
def vueDemoTmpl : FS :=
  [("index.html.ejs".toList, "<title>t</title>".toList)]

/-! ### Basic facts about isPrefixOf, the replace functions and occursB -/

theorem ipo_cons (a b : Char) (as bs : List Char) :
    (a :: as).isPrefixOf (b :: bs) = (a == b && as.isPrefixOf bs) := rfl

theorem not_pos_of_ipo_false {pat : List Char} {c : Char} {rest : List Char}
    (h : pat.isPrefixOf (c :: rest) = false) :
    ¬(pat.isPrefixOf (c :: rest) = true ∧ pat ≠ []) := by
  intro hc
  rw [h] at hc
  exact Bool.false_ne_true hc.1

theorem ipo_append_self (a t : List Char) : a.isPrefixOf (a ++ t) = true := by
  induction a with
  | nil => simp [List.isPrefixOf]
  | cons c as ih => simp [ipo_cons, ih]

theorem ipo_head {pat : List Char} {c : Char} {xs : List Char}
    (h : pat.isPrefixOf (c :: xs) = true) (hne : pat ≠ []) : pat.head? = some c := by
  cases pat with
  | nil => exact absurd rfl hne
  | cons p ps =>
    rw [ipo_cons] at h
    have hpc : (p == c) = true := (Bool.and_eq_true _ _).mp h |>.1
    simp only [List.head?]
    exact congrArg some (eq_of_beq hpc)

theorem ipo_elim {pat s : List Char} (h : pat.isPrefixOf s = true) :
    ∃ t, s = pat ++ t := by
  induction pat generalizing s with
  | nil => exact ⟨s, rfl⟩
  | cons p ps ih =>
    cases s with
    | nil => simp [List.isPrefixOf] at h
    | cons b bs =>
      rw [ipo_cons] at h
      obtain ⟨h1, h2⟩ := (Bool.and_eq_true _ _).mp h
      obtain ⟨t, ht⟩ := ih h2
      exact ⟨t, by rw [List.cons_append, ← ht, eq_of_beq h1]⟩

theorem replaceAllAux_fuel (pat repl : List Char) :
    ∀ f1 f2 s, s.length ≤ f1 → s.length ≤ f2 →
      replaceAllAux pat repl f1 s = replaceAllAux pat repl f2 s := by
  intro f1
  induction f1 with
  | zero =>
    intro f2 s h1 _
    have hs : s = [] := List.eq_nil_of_length_eq_zero (Nat.le_zero.mp h1)
    subst hs
    cases f2 <;> rfl
  | succ f ih =>
    intro f2 s h1 h2
    cases s with
    | nil => cases f2 <;> rfl
    | cons c rest =>
      cases f2 with
      | zero => simp at h2
      | succ g =>
        simp only [replaceAllAux]
        by_cases hc : pat.isPrefixOf (c :: rest) = true ∧ pat ≠ []
        · rw [if_pos hc, if_pos hc]
          have hlen : (rest.drop (pat.length - 1)).length ≤ rest.length := by
            simp [List.length_drop]
          have hr1 : rest.length ≤ f := by simpa using h1
          have hr2 : rest.length ≤ g := by simpa using h2
          exact congrArg (repl ++ ·) (ih _ _ (le_trans hlen hr1) (le_trans hlen hr2))
        · rw [if_neg hc, if_neg hc]
          have hr1 : rest.length ≤ f := by simpa using h1
          have hr2 : rest.length ≤ g := by simpa using h2
          exact congrArg (c :: ·) (ih _ _ hr1 hr2)

theorem replaceAllL_nil (pat repl : List Char) : replaceAllL pat repl [] = [] := rfl

theorem replaceAllL_cons_pos {pat : List Char} (repl : List Char) {c : Char}
    {rest : List Char} (h : pat.isPrefixOf (c :: rest) = true ∧ pat ≠ []) :
    replaceAllL pat repl (c :: rest) =
      repl ++ replaceAllL pat repl (rest.drop (pat.length - 1)) := by
  show replaceAllAux pat repl (rest.length + 1) (c :: rest) = _
  rw [replaceAllAux, if_pos h]
  exact congrArg (repl ++ ·) (replaceAllAux_fuel pat repl _ _ _
    (by simp [List.length_drop]) (le_refl _))

theorem replaceAllL_cons_neg {pat : List Char} (repl : List Char) {c : Char}
    {rest : List Char} (h : ¬(pat.isPrefixOf (c :: rest) = true ∧ pat ≠ [])) :
    replaceAllL pat repl (c :: rest) = c :: replaceAllL pat repl rest := by
  show replaceAllAux pat repl (rest.length + 1) (c :: rest) = _
  rw [replaceAllAux, if_neg h]
  exact congrArg (c :: ·) (replaceAllAux_fuel pat repl _ _ _ (le_refl _) (le_refl _))

theorem replaceFirstL_nil (pat repl : List Char) : replaceFirstL pat repl [] = [] := rfl

theorem replaceFirstL_cons_pos {pat : List Char} (repl : List Char) {c : Char}
    {rest : List Char} (h : pat.isPrefixOf (c :: rest) = true ∧ pat ≠ []) :
    replaceFirstL pat repl (c :: rest) = repl ++ rest.drop (pat.length - 1) := by
  rw [replaceFirstL, if_pos h]

theorem replaceFirstL_cons_neg {pat : List Char} (repl : List Char) {c : Char}
    {rest : List Char} (h : ¬(pat.isPrefixOf (c :: rest) = true ∧ pat ≠ [])) :
    replaceFirstL pat repl (c :: rest) = c :: replaceFirstL pat repl rest := by
  rw [replaceFirstL, if_neg h]

theorem occursB_cons (pat : List Char) (c : Char) (rest : List Char) :
    occursB pat (c :: rest) = (pat.isPrefixOf (c :: rest) || occursB pat rest) := rfl

theorem occursB_head_not_mem {pat : List Char} {h0 : Char} (hh : pat.head? = some h0)
    {s : List Char} (hs : h0 ∉ s) : occursB pat s = false := by
  induction s with
  | nil =>
    cases pat with
    | nil => simp at hh
    | cons p ps => rfl
  | cons c rest ih =>
    have hne : pat ≠ [] := by intro e; subst e; simp at hh
    have h1 : pat.isPrefixOf (c :: rest) = false := by
      cases hx : pat.isPrefixOf (c :: rest)
      · rfl
      · have := ipo_head hx hne
        rw [hh] at this
        have : h0 = c := Option.some.inj this
        exact absurd (this ▸ List.mem_cons_self c rest) hs
    rw [occursB_cons, h1, Bool.false_or]
    exact ih (fun hm => hs (List.mem_cons_of_mem _ hm))

theorem replaceAllL_id {pat repl s : List Char} (h : occursB pat s = false) :
    replaceAllL pat repl s = s := by
  induction s with
  | nil => rfl
  | cons c rest ih =>
    rw [occursB_cons, Bool.or_eq_false_iff] at h
    rw [replaceAllL_cons_neg repl (not_pos_of_ipo_false h.1), ih h.2]

theorem replaceFirstL_id {pat repl s : List Char} (h : occursB pat s = false) :
    replaceFirstL pat repl s = s := by
  induction s with
  | nil => rfl
  | cons c rest ih =>
    rw [occursB_cons, Bool.or_eq_false_iff] at h
    rw [replaceFirstL_cons_neg repl (not_pos_of_ipo_false h.1), ih h.2]

theorem replaceAllL_skip {pat : List Char} {h0 : Char} (hh : pat.head? = some h0)
    (repl : List Char) {s1 : List Char} (h1 : h0 ∉ s1) (s2 : List Char) :
    replaceAllL pat repl (s1 ++ s2) = s1 ++ replaceAllL pat repl s2 := by
  induction s1 with
  | nil => rfl
  | cons c s1' ih =>
    have hne : pat ≠ [] := by intro e; subst e; simp at hh
    have hnp : pat.isPrefixOf (c :: (s1' ++ s2)) = false := by
      cases hx : pat.isPrefixOf (c :: (s1' ++ s2))
      · rfl
      · have := ipo_head hx hne
        rw [hh] at this
        exact absurd (Option.some.inj this ▸ List.mem_cons_self c s1')
          (fun hm => h1 hm)
    rw [List.cons_append, replaceAllL_cons_neg repl (not_pos_of_ipo_false hnp),
      ih (fun hm => h1 (List.mem_cons_of_mem _ hm))]
    simp

theorem replaceAllL_exact {pat : List Char} (hne : pat ≠ []) (repl rest : List Char) :
    replaceAllL pat repl (pat ++ rest) = repl ++ replaceAllL pat repl rest := by
  cases pat with
  | nil => exact absurd rfl hne
  | cons p pt =>
    have h : (p :: pt).isPrefixOf (p :: (pt ++ rest)) = true := by
      have := ipo_append_self (p :: pt) rest
      rw [List.cons_append] at this
      exact this
    rw [List.cons_append, replaceAllL_cons_pos repl ⟨h, hne⟩]
    have : (pt ++ rest).drop ((p :: pt).length - 1) = rest := by
      simp [List.length_cons]
    rw [this]

theorem replaceFirstL_exact {pat : List Char} (hne : pat ≠ []) (repl rest : List Char) :
    replaceFirstL pat repl (pat ++ rest) = repl ++ rest := by
  cases pat with
  | nil => exact absurd rfl hne
  | cons p pt =>
    have h : (p :: pt).isPrefixOf (p :: (pt ++ rest)) = true := by
      have := ipo_append_self (p :: pt) rest
      rw [List.cons_append] at this
      exact this
    rw [List.cons_append, replaceFirstL_cons_pos repl ⟨h, hne⟩]
    have : (pt ++ rest).drop ((p :: pt).length - 1) = rest := by
      simp [List.length_cons]
    rw [this]

theorem divergeB_not_ipo {a b : List Char} (h : divergeB a b = true) (x : List Char) :
    a.isPrefixOf (b ++ x) = false := by
  induction a generalizing b with
  | nil => cases b <;> simp [divergeB] at h
  | cons a0 as ih =>
    cases b with
    | nil => simp [divergeB] at h
    | cons b0 bs =>
      rw [divergeB] at h
      cases hb : (a0 == b0) with
      | false => simp [List.cons_append, ipo_cons, hb]
      | true =>
        have hd : divergeB as bs = true := by
          rcases (Bool.or_eq_true _ _).mp h with h' | h'
          · rw [bne] at h'; rw [hb] at h'; simp at h'
          · exact h'
        simp [List.cons_append, ipo_cons, hb, ih hd]

theorem replaceFirstL_split {pat : List Char} (hne : pat ≠ []) (repl : List Char)
    {a b : List Char} (h : noEarlyOcc pat b a = true) :
    replaceFirstL pat repl (a ++ pat ++ b) = a ++ repl ++ b := by
  induction a with
  | nil => simp only [List.nil_append]; exact replaceFirstL_exact hne repl b
  | cons c a' ih =>
    rw [noEarlyOcc] at h
    obtain ⟨h1, h2⟩ := (Bool.and_eq_true _ _).mp h
    have h1' : pat.isPrefixOf (c :: (a' ++ pat ++ b)) = false := by
      simpa using h1
    have : (c :: a') ++ pat ++ b = c :: (a' ++ pat ++ b) := by simp
    rw [this, replaceFirstL_cons_neg repl (not_pos_of_ipo_false h1'), ih h2]
    simp

theorem foldRF_id (f : List Char × List Char → List Char)
    (L : List (List Char × List Char)) {s : List Char}
    (h : ∀ pr ∈ L, occursB pr.1 s = false) :
    L.foldl (fun acc pr => replaceFirstL pr.1 (f pr) acc) s = s := by
  induction L with
  | nil => rfl
  | cons pr L' ih =>
    rw [List.foldl_cons, replaceFirstL_id (h pr (List.mem_cons_self _ _))]
    exact ih (fun q hq => h q (List.mem_cons_of_mem _ hq))

/-! ### Decidable facts about the six tokens -/

theorem tok_head : ∀ i : Fin 6, (tokAt i).head? = some '<' := by decide

theorem tok_ne_nil : ∀ i : Fin 6, tokAt i ≠ [] := by decide

theorem tok_tail_no_lt : ∀ i : Fin 6, '<' ∉ (tokAt i).drop 1 := by decide

theorem tok_diverge : ∀ i j : Fin 6, i ≠ j → divergeB (tokAt i) (tokAt j) = true := by
  decide

theorem tok_eq_cons (i : Fin 6) : tokAt i = '<' :: (tokAt i).drop 1 := by
  have h := tok_head i
  cases he : tokAt i with
  | nil => rw [he] at h; simp at h
  | cons c t =>
    rw [he] at h
    simp only [List.head?] at h
    rw [Option.some.inj h] at he ⊢
    simp

/-! ### Global replace over a chunk decomposition -/

theorem joinChunks_cons (c : Chunk) (cs : List Chunk) :
    joinChunks (c :: cs) = c.text ++ joinChunks cs := by
  simp [joinChunks]

theorem substChunks_cons (cfg : PWAConfig) (c : Chunk) (cs : List Chunk) :
    substChunks cfg (c :: cs) = c.subst cfg ++ substChunks cfg cs := by
  simp [substChunks]

theorem replaceAllL_skip_block {pat : List Char} (repl : List Char)
    {b rest : List Char} (hb : b ≠ []) (hh : pat.head? = some '<')
    (hbt : '<' ∉ b.drop 1) (hnp : pat.isPrefixOf (b ++ rest) = false) :
    replaceAllL pat repl (b ++ rest) = b ++ replaceAllL pat repl rest := by
  cases b with
  | nil => exact absurd rfl hb
  | cons b0 bt =>
    rw [List.cons_append] at hnp ⊢
    rw [replaceAllL_cons_neg repl (not_pos_of_ipo_false hnp)]
    rw [replaceAllL_skip hh repl (by simpa using hbt) rest]
    simp

theorem replaceAllL_chunks (i : Fin 6) (v : List Char)
    (cs : List Chunk) (hplain : ∀ s, Chunk.plain s ∈ cs → '<' ∉ s) :
    replaceAllL (tokAt i) v (joinChunks cs) = joinChunks (cs.map (chunkStep i v)) := by
  induction cs with
  | nil => rfl
  | cons c cs' ih =>
    have ih' := ih (fun s hs => hplain s (List.mem_cons_of_mem _ hs))
    cases c with
    | plain s =>
      have hs : '<' ∉ s := hplain s (List.mem_cons_self _ _)
      rw [List.map_cons, joinChunks_cons, joinChunks_cons]
      show replaceAllL (tokAt i) v (s ++ joinChunks cs') = s ++ _
      rw [replaceAllL_skip (tok_head i) v hs (joinChunks cs'), ih']
    | tk j =>
      by_cases hji : j = i
      · subst hji
        rw [List.map_cons, joinChunks_cons, joinChunks_cons]
        show replaceAllL (tokAt j) v (tokAt j ++ joinChunks cs') = Chunk.text (chunkStep j v (Chunk.tk j)) ++ _
        rw [replaceAllL_exact (tok_ne_nil j) v (joinChunks cs'), ih']
        simp [chunkStep, Chunk.text]
      · rw [List.map_cons, joinChunks_cons, joinChunks_cons]
        show replaceAllL (tokAt i) v (tokAt j ++ joinChunks cs') = Chunk.text (chunkStep i v (Chunk.tk j)) ++ _
        have hnp : (tokAt i).isPrefixOf (tokAt j ++ joinChunks cs') = false :=
          divergeB_not_ipo (tok_diverge i j (fun h => hji h.symm)) _
        rw [replaceAllL_skip_block v (tok_ne_nil j) (tok_head i) (tok_tail_no_lt j) hnp, ih']
        simp [chunkStep, Chunk.text, hji]

theorem hplain_step (i : Fin 6) {v : List Char} {cs : List Chunk} (hv : '<' ∉ v)
    (hplain : ∀ s, Chunk.plain s ∈ cs → '<' ∉ s) :
    ∀ s, Chunk.plain s ∈ cs.map (chunkStep i v) → '<' ∉ s := by
  intro s hs
  rw [List.mem_map] at hs
  obtain ⟨c, hc, he⟩ := hs
  cases c with
  | plain t =>
    simp only [chunkStep] at he
    injection he with h1
    subst h1
    exact hplain _ hc
  | tk j =>
    simp only [chunkStep] at he
    by_cases hji : j = i
    · rw [if_pos hji] at he
      injection he with h1
      subst h1
      exact hv
    · rw [if_neg hji] at he
      exact Chunk.noConfusion he

theorem chunkChain (cfg : PWAConfig) (c : Chunk) :
    Chunk.text (chunkStep 4 (valAt cfg 4) (chunkStep 3 (valAt cfg 3)
      (chunkStep 2 (valAt cfg 2) (chunkStep 1 (valAt cfg 1)
        (chunkStep 0 (valAt cfg 0) c))))) = Chunk.subst cfg c := by
  cases c with
  | plain s => rfl
  | tk j => fin_cases j <;> rfl

theorem five_map_subst (cfg : PWAConfig) (cs : List Chunk) :
    joinChunks ((((cs.map (chunkStep 0 (valAt cfg 0))).map
      (chunkStep 1 (valAt cfg 1))).map (chunkStep 2 (valAt cfg 2))).map
        (chunkStep 3 (valAt cfg 3)) |>.map (chunkStep 4 (valAt cfg 4))) =
      substChunks cfg cs := by
  unfold joinChunks substChunks
  simp only [List.map_map]
  congr 1
  exact List.map_congr_left (fun c _ => chunkChain cfg c)

/-- The heart of claims about token substitution: on a content that
decomposes into literal stretches (free of the character that opens a
token) and exact token occurrences, processTemplate rewrites each of
the five pwa tokens everywhere to the corresponding configuration
value, leaves the useTailwind token as it is, and the marker pass does
not touch the result when no registered marker occurs in it. -/
theorem processTemplate_chunks (cfg : PWAConfig) (cs : List Chunk)
    (hplain : ∀ s, Chunk.plain s ∈ cs → '<' ∉ s)
    (hvals : ∀ i : Fin 6, i.val < 5 → '<' ∉ valAt cfg i)
    (hmk : ∀ pr ∈ templatePlaceholders cfg.framework,
      occursB pr.1 (substChunks cfg cs) = false) :
    processTemplate (joinChunks cs) cfg = substChunks cfg cs := by
  have hv0 : '<' ∉ valAt cfg 0 := hvals 0 (by decide)
  have hv1 : '<' ∉ valAt cfg 1 := hvals 1 (by decide)
  have hv2 : '<' ∉ valAt cfg 2 := hvals 2 (by decide)
  have hv3 : '<' ∉ valAt cfg 3 := hvals 3 (by decide)
  have hv4 : '<' ∉ valAt cfg 4 := hvals 4 (by decide)
  have hp1 := hplain_step 0 hv0 hplain
  have hp2 := hplain_step 1 hv1 hp1
  have hp3 := hplain_step 2 hv2 hp2
  have hp4 := hplain_step 3 hv3 hp3
  have e1 : replaceAllL tokPwaName cfg.pwa.name (joinChunks cs) =
      joinChunks (cs.map (chunkStep 0 (valAt cfg 0))) :=
    replaceAllL_chunks 0 (valAt cfg 0) cs hplain
  have e2 := replaceAllL_chunks 1 (valAt cfg 1) _ hp1
  have e3 := replaceAllL_chunks 2 (valAt cfg 2) _ hp2
  have e4 := replaceAllL_chunks 3 (valAt cfg 3) _ hp3
  have e5 := replaceAllL_chunks 4 (valAt cfg 4) _ hp4
  have hr5 : replaceAllL tokPwaDisplayMode cfg.pwa.displayMode.text
      (replaceAllL tokPwaBackgroundColor cfg.pwa.backgroundColor
        (replaceAllL tokPwaThemeColor cfg.pwa.themeColor
          (replaceAllL tokPwaShortName cfg.pwa.shortName
            (replaceAllL tokPwaName cfg.pwa.name (joinChunks cs))))) =
      substChunks cfg cs := by
    rw [e1]
    rw [show replaceAllL tokPwaShortName cfg.pwa.shortName
        (joinChunks (cs.map (chunkStep 0 (valAt cfg 0)))) =
        joinChunks ((cs.map (chunkStep 0 (valAt cfg 0))).map
          (chunkStep 1 (valAt cfg 1))) from e2]
    rw [show replaceAllL tokPwaThemeColor cfg.pwa.themeColor _ = _ from e3]
    rw [show replaceAllL tokPwaBackgroundColor cfg.pwa.backgroundColor _ = _ from e4]
    rw [show replaceAllL tokPwaDisplayMode cfg.pwa.displayMode.text _ = _ from e5]
    exact five_map_subst cfg cs
  simp only [processTemplate]
  simp only [hr5]
  cases cfg.useTailwind with
  | false =>
    rw [if_neg (by decide : ¬(false = true))]
    exact foldRF_id (fun _ => []) _ hmk
  | true =>
    rw [if_pos rfl]
    exact foldRF_id (fun pr => pr.2) _ hmk

/-! ### Counting occurrences -/

theorem countOccAux_fuel (pat : List Char) :
    ∀ f1 f2 s, s.length ≤ f1 → s.length ≤ f2 →
      countOccAux pat f1 s = countOccAux pat f2 s := by
  intro f1
  induction f1 with
  | zero =>
    intro f2 s h1 _
    have hs : s = [] := List.eq_nil_of_length_eq_zero (Nat.le_zero.mp h1)
    subst hs
    cases f2 <;> rfl
  | succ f ih =>
    intro f2 s h1 h2
    cases s with
    | nil => cases f2 <;> rfl
    | cons c rest =>
      cases f2 with
      | zero => simp at h2
      | succ g =>
        simp only [countOccAux]
        have hr1 : rest.length ≤ f := by simpa using h1
        have hr2 : rest.length ≤ g := by simpa using h2
        by_cases hc : pat.isPrefixOf (c :: rest) = true ∧ pat ≠ []
        · rw [if_pos hc, if_pos hc]
          have hlen : (rest.drop (pat.length - 1)).length ≤ rest.length := by
            simp [List.length_drop]
          exact congrArg (1 + ·) (ih _ _ (le_trans hlen hr1) (le_trans hlen hr2))
        · rw [if_neg hc, if_neg hc]
          exact ih _ _ hr1 hr2

theorem countOcc_nil (pat : List Char) : countOcc pat [] = 0 := rfl

theorem countOcc_cons_pos {pat : List Char} {c : Char} {rest : List Char}
    (h : pat.isPrefixOf (c :: rest) = true ∧ pat ≠ []) :
    countOcc pat (c :: rest) = 1 + countOcc pat (rest.drop (pat.length - 1)) := by
  show countOccAux pat (rest.length + 1) (c :: rest) = _
  rw [countOccAux, if_pos h]
  exact congrArg (1 + ·) (countOccAux_fuel pat _ _ _
    (by simp [List.length_drop]) (le_refl _))

theorem countOcc_cons_neg {pat : List Char} {c : Char} {rest : List Char}
    (h : ¬(pat.isPrefixOf (c :: rest) = true ∧ pat ≠ [])) :
    countOcc pat (c :: rest) = countOcc pat rest := by
  show countOccAux pat (rest.length + 1) (c :: rest) = _
  rw [countOccAux, if_neg h]
  exact countOccAux_fuel pat _ _ _ (le_refl _) (le_refl _)

theorem countOcc_skip {pat : List Char} {h0 : Char} (hh : pat.head? = some h0)
    {s1 : List Char} (h1 : h0 ∉ s1) (s2 : List Char) :
    countOcc pat (s1 ++ s2) = countOcc pat s2 := by
  induction s1 with
  | nil => rfl
  | cons c s1' ih =>
    have hne : pat ≠ [] := by intro e; subst e; simp at hh
    have hnp : pat.isPrefixOf (c :: (s1' ++ s2)) = false := by
      cases hx : pat.isPrefixOf (c :: (s1' ++ s2))
      · rfl
      · have := ipo_head hx hne
        rw [hh] at this
        exact absurd (Option.some.inj this ▸ List.mem_cons_self c s1')
          (fun hm => h1 hm)
    rw [List.cons_append, countOcc_cons_neg (not_pos_of_ipo_false hnp)]
    exact ih (fun hm => h1 (List.mem_cons_of_mem _ hm))

theorem countOcc_exact {pat : List Char} (hne : pat ≠ []) (rest : List Char) :
    countOcc pat (pat ++ rest) = 1 + countOcc pat rest := by
  cases pat with
  | nil => exact absurd rfl hne
  | cons p pt =>
    have h : (p :: pt).isPrefixOf (p :: (pt ++ rest)) = true := by
      have := ipo_append_self (p :: pt) rest
      rw [List.cons_append] at this
      exact this
    rw [List.cons_append, countOcc_cons_pos ⟨h, hne⟩]
    have : (pt ++ rest).drop ((p :: pt).length - 1) = rest := by
      simp [List.length_cons]
    rw [this]

theorem countOcc_skip_block {pat : List Char} {b rest : List Char} (hb : b ≠ [])
    (hh : pat.head? = some '<') (hbt : '<' ∉ b.drop 1)
    (hnp : pat.isPrefixOf (b ++ rest) = false) :
    countOcc pat (b ++ rest) = countOcc pat rest := by
  cases b with
  | nil => exact absurd rfl hb
  | cons b0 bt =>
    rw [List.cons_append] at hnp ⊢
    rw [countOcc_cons_neg (not_pos_of_ipo_false hnp)]
    exact countOcc_skip hh (by simpa using hbt) rest

theorem countOcc_chunks (i : Fin 6) (cs : List Chunk)
    (hplain : ∀ s, Chunk.plain s ∈ cs → '<' ∉ s) :
    countOcc (tokAt i) (joinChunks cs) = countTk i cs := by
  induction cs with
  | nil => rfl
  | cons c cs' ih =>
    have ih' := ih (fun s hs => hplain s (List.mem_cons_of_mem _ hs))
    rw [joinChunks_cons]
    cases c with
    | plain s =>
      have hs : '<' ∉ s := hplain s (List.mem_cons_self _ _)
      rw [show Chunk.text (Chunk.plain s) = s from rfl,
        countOcc_skip (tok_head i) hs (joinChunks cs'), ih']
      simp [countTk, List.countP_cons]
    | tk j =>
      by_cases hji : j = i
      · subst hji
        rw [show Chunk.text (Chunk.tk j) = tokAt j from rfl,
          countOcc_exact (tok_ne_nil j) (joinChunks cs'), ih']
        simp [countTk, List.countP_cons]
        omega
      · have hnp : (tokAt i).isPrefixOf (tokAt j ++ joinChunks cs') = false :=
          divergeB_not_ipo (tok_diverge i j (fun h => hji h.symm)) _
        rw [show Chunk.text (Chunk.tk j) = tokAt j from rfl,
          countOcc_skip_block (tok_ne_nil j) (tok_head i) (tok_tail_no_lt j) hnp, ih']
        simp [countTk, List.countP_cons, hji]

theorem countOcc_substChunks (i : Fin 6) (hi : i.val < 5) (cfg : PWAConfig)
    (cs : List Chunk)
    (hplain : ∀ s, Chunk.plain s ∈ cs → '<' ∉ s)
    (hvals : ∀ j : Fin 6, j.val < 5 → '<' ∉ valAt cfg j) :
    countOcc (tokAt i) (substChunks cfg cs) = 0 := by
  induction cs with
  | nil => rfl
  | cons c cs' ih =>
    have ih' := ih (fun s hs => hplain s (List.mem_cons_of_mem _ hs))
    rw [substChunks_cons]
    cases c with
    | plain s =>
      have hs : '<' ∉ s := hplain s (List.mem_cons_self _ _)
      rw [show Chunk.subst cfg (Chunk.plain s) = s from rfl,
        countOcc_skip (tok_head i) hs (substChunks cfg cs')]
      exact ih'
    | tk j =>
      by_cases hj : j.val < 5
      · rw [show Chunk.subst cfg (Chunk.tk j) = valAt cfg j from rfl,
          countOcc_skip (tok_head i) (hvals j hj) (substChunks cfg cs')]
        exact ih'
      · have hj5 : j = 5 := Fin.ext (by omega)
        subst hj5
        have hi5 : i ≠ 5 := fun h => by rw [h] at hi; omega
        have hval5 : Chunk.subst cfg (Chunk.tk 5) = tokAt 5 := rfl
        have hnp : (tokAt i).isPrefixOf (tokAt 5 ++ substChunks cfg cs') = false :=
          divergeB_not_ipo (tok_diverge i 5 hi5) _
        rw [hval5, countOcc_skip_block (tok_ne_nil 5) (tok_head i)
          (tok_tail_no_lt 5) hnp]
        exact ih'

/-! ### Whitespace-sensitivity of token recognition -/

theorem ipo_append_cancel (a x y : List Char) :
    (a ++ x).isPrefixOf (a ++ y) = x.isPrefixOf y := by
  induction a with
  | nil => rfl
  | cons c as ih => simp [List.cons_append, ipo_cons, ih]

theorem tok_decomp : ∀ i : Fin 6,
    tokAt i = "<%=".toList ++ (' ' :: (pathAt i ++ (' ' :: "%>".toList))) := by
  decide

theorem six_ne_nil : ∀ q ∈ sixPaths, q ≠ [] := by decide

theorem six_head : ∀ q ∈ sixPaths, q.head? = some 'p' ∨ q.head? = some 'u' := by
  decide

theorem path_head : ∀ i : Fin 6, (pathAt i).head? = some 'p' ∨ (pathAt i).head? = some 'u' := by
  decide

theorem path_ne_nil : ∀ i : Fin 6, pathAt i ≠ [] := by decide

theorem six_no_lt : ∀ q ∈ sixPaths, '<' ∉ q := by decide

theorem six_no_slash : ∀ q ∈ sixPaths, '/' ∉ q := by decide

theorem six_diverge : ∀ i : Fin 6, ∀ q ∈ sixPaths, q ≠ pathAt i →
    divergeB (pathAt i ++ (' ' :: "%>".toList)) q = true := by decide

theorem wsChar_ne_lt {c : Char} (h : wsChar c) : c ≠ '<' := by
  rcases h with h | h | h | h <;> subst h <;> decide

theorem wsChar_ne_slash {c : Char} (h : wsChar c) : c ≠ '/' := by
  rcases h with h | h | h | h <;> subst h <;> decide

theorem beq_p_ws {c : Char} (h : wsChar c) : ('p' == c) = false := by
  rcases h with h | h | h | h <;> subst h <;> decide

theorem beq_u_ws {c : Char} (h : wsChar c) : ('u' == c) = false := by
  rcases h with h | h | h | h <;> subst h <;> decide

theorem beq_sp_ws_of_ne {c : Char} (h : wsChar c) (hne : c ≠ ' ') :
    (' ' == c) = false := by
  rcases h with h | h | h | h <;> subst h <;> first | exact absurd rfl hne | decide

theorem beq_pct_ws {c : Char} (h : wsChar c) : ('%' == c) = false := by
  rcases h with h | h | h | h <;> subst h <;> decide

/-- Token recognition in processTemplate is an exact match: a token
written with any whitespace arrangement other than exactly one space on
each side of the path is not recognized as a prefix. -/
theorem wsTok_not_ipo (i : Fin 6) {p ws1 ws2 : List Char}
    (hp : p ∈ sixPaths) (hws1 : ∀ c ∈ ws1, wsChar c) (hws2 : ∀ c ∈ ws2, wsChar c)
    (hne : ¬(ws1 = [' '] ∧ ws2 = [' '])) :
    (tokAt i).isPrefixOf (wsTok p ws1 ws2) = false := by
  rw [tok_decomp i, wsTok, ipo_append_cancel]
  cases ws1 with
  | nil =>
    obtain ⟨p0, pt, hp0⟩ : ∃ p0 pt, p = p0 :: pt := by
      cases p with
      | nil => exact absurd rfl (six_ne_nil [] hp)
      | cons a b => exact ⟨a, b, rfl⟩
    subst hp0
    have h0 : (' ' == p0) = false := by
      rcases six_head _ hp with h | h <;>
        simp only [List.head?, Option.some.injEq] at h <;> rw [h] <;> decide
    simp [List.cons_append, ipo_cons, h0]
  | cons w ws1' =>
    rw [List.cons_append, ipo_cons]
    by_cases hw : w = ' '
    · subst hw
      rw [show (' ' == ' ') = true from rfl, Bool.true_and]
      cases ws1' with
      | cons w' ws1'' =>
        obtain ⟨q0, qt, hq0⟩ : ∃ q0 qt, pathAt i = q0 :: qt := by
          cases hqe : pathAt i with
          | nil => exact absurd hqe (path_ne_nil i)
          | cons a b => exact ⟨a, b, rfl⟩
        rw [hq0, List.cons_append, List.cons_append, ipo_cons]
        have h0 : (q0 == w') = false := by
          rcases path_head i with h | h <;> rw [hq0] at h <;>
            simp only [List.head?, Option.some.injEq] at h <;> rw [h]
          · exact beq_p_ws (hws1 w' (by simp))
          · exact beq_u_ws (hws1 w' (by simp))
        simp [h0]
      | nil =>
        have hws2ne : ws2 ≠ [' '] := fun h2 => hne ⟨rfl, h2⟩
        simp only [List.nil_append]
        by_cases hpi : p = pathAt i
        · subst hpi
          rw [show pathAt i ++ (' ' :: "%>".toList) = pathAt i ++ (' ' :: "%>".toList) from rfl]
          rw [show (pathAt i ++ (' ' :: "%>".toList)).isPrefixOf
              (pathAt i ++ (ws2 ++ "%>".toList)) =
              ((' ' :: "%>".toList).isPrefixOf (ws2 ++ "%>".toList)) from
            ipo_append_cancel (pathAt i) _ _]
          cases ws2 with
          | nil => decide
          | cons w2 ws2' =>
            rw [List.cons_append, ipo_cons]
            by_cases hw2 : w2 = ' '
            · subst hw2
              rw [show (' ' == ' ') = true from rfl, Bool.true_and]
              cases ws2' with
              | nil => exact absurd rfl hws2ne
              | cons w3 ws2'' =>
                rw [List.cons_append, show ("%>".toList) = '%' :: ">".toList from rfl,
                  ipo_cons]
                have h3 : ('%' == w3) = false := beq_pct_ws (hws2 w3 (by simp))
                simp [h3]
            · have h2 : (' ' == w2) = false :=
                beq_sp_ws_of_ne (hws2 w2 (by simp)) hw2
              simp [h2]
        · exact divergeB_not_ipo (six_diverge i p hp hpi) _
    · have h0 : (' ' == w) = false :=
        beq_sp_ws_of_ne (hws1 w (by simp)) hw
      simp [h0]

theorem mark_head : ∀ fw : Framework, ∀ pr ∈ templatePlaceholders fw,
    pr.1.head? = some '/' := by
  intro fw
  cases fw <;> decide

theorem processTemplate_id (cfg : PWAConfig) {content : List Char}
    (htoks : ∀ i : Fin 6, i.val < 5 → occursB (tokAt i) content = false)
    (hmk : ∀ pr ∈ templatePlaceholders cfg.framework,
      occursB pr.1 content = false) :
    processTemplate content cfg = content := by
  simp only [processTemplate]
  rw [show replaceAllL tokPwaName cfg.pwa.name content = content from
    replaceAllL_id (htoks 0 (by decide))]
  rw [show replaceAllL tokPwaShortName cfg.pwa.shortName content = content from
    replaceAllL_id (htoks 1 (by decide))]
  rw [show replaceAllL tokPwaThemeColor cfg.pwa.themeColor content = content from
    replaceAllL_id (htoks 2 (by decide))]
  rw [show replaceAllL tokPwaBackgroundColor cfg.pwa.backgroundColor content = content from
    replaceAllL_id (htoks 3 (by decide))]
  rw [show replaceAllL tokPwaDisplayMode cfg.pwa.displayMode.text content = content from
    replaceAllL_id (htoks 4 (by decide))]
  cases cfg.useTailwind with
  | false =>
    rw [if_neg (by decide : ¬(false = true))]
    exact foldRF_id (fun _ => []) _ hmk
  | true =>
    rw [if_pos rfl]
    exact foldRF_id (fun pr => pr.2) _ hmk

theorem lt_not_mem_wsTok_tail {p ws1 ws2 : List Char} (hp : p ∈ sixPaths)
    (hws1 : ∀ c ∈ ws1, wsChar c) (hws2 : ∀ c ∈ ws2, wsChar c) :
    '<' ∉ ('%' :: ('=' :: (ws1 ++ (p ++ (ws2 ++ "%>".toList))))) := by
  intro hm
  simp only [List.mem_cons, List.mem_append] at hm
  rcases hm with h | h | h | h | h | h
  · exact absurd h (by decide)
  · exact absurd h (by decide)
  · exact absurd rfl (wsChar_ne_lt (hws1 _ h))
  · exact six_no_lt p hp h
  · exact absurd rfl (wsChar_ne_lt (hws2 _ h))
  · exact absurd h (by decide)

theorem slash_not_mem_wsTok {p ws1 ws2 : List Char} (hp : p ∈ sixPaths)
    (hws1 : ∀ c ∈ ws1, wsChar c) (hws2 : ∀ c ∈ ws2, wsChar c) :
    '/' ∉ wsTok p ws1 ws2 := by
  intro hm
  have he : wsTok p ws1 ws2 =
      '<' :: ('%' :: ('=' :: (ws1 ++ (p ++ (ws2 ++ "%>".toList))))) := rfl
  rw [he] at hm
  simp only [List.mem_cons, List.mem_append] at hm
  rcases hm with h | h | h | h | h | h | h
  · exact absurd h (by decide)
  · exact absurd h (by decide)
  · exact absurd h (by decide)
  · exact absurd rfl (wsChar_ne_slash (hws1 _ h))
  · exact six_no_slash p hp h
  · exact absurd rfl (wsChar_ne_slash (hws2 _ h))
  · exact absurd h (by decide)

theorem wsTok_occursB (i : Fin 6) {p ws1 ws2 : List Char}
    (hp : p ∈ sixPaths) (hws1 : ∀ c ∈ ws1, wsChar c) (hws2 : ∀ c ∈ ws2, wsChar c)
    (hne : ¬(ws1 = [' '] ∧ ws2 = [' '])) :
    occursB (tokAt i) (wsTok p ws1 ws2) = false := by
  have he : wsTok p ws1 ws2 =
      '<' :: ('%' :: ('=' :: (ws1 ++ (p ++ (ws2 ++ "%>".toList))))) := rfl
  have h1 := wsTok_not_ipo i hp hws1 hws2 hne
  rw [he] at h1 ⊢
  rw [occursB_cons, h1,
    occursB_head_not_mem (tok_head i) (lt_not_mem_wsTok_tail hp hws1 hws2)]
  rfl

/-! ### Filesystem lemmas -/

theorem lookupF_writeF_self (fs : FS) (p c : List Char) :
    lookupF (writeF fs p c) p = some c := by
  induction fs with
  | nil => simp [writeF, lookupF]
  | cons e fs ih =>
    by_cases he : e.1 = p
    · simp [writeF, he, lookupF]
    · simp [writeF, he, lookupF, ih]

theorem lookupF_writeF_ne (fs : FS) (p c : List Char) {q : List Char} (h : q ≠ p) :
    lookupF (writeF fs p c) q = lookupF fs q := by
  have hpq : ¬p = q := fun he => h he.symm
  induction fs with
  | nil =>
    show (if p = q then some c else none) = none
    rw [if_neg hpq]
  | cons e fs ih =>
    by_cases he : e.1 = p
    · rw [show writeF (e :: fs) p c = (p, c) :: fs from by
        simp only [writeF, if_pos he]]
      show (if p = q then some c else lookupF fs q) =
        (if e.1 = q then some e.2 else lookupF fs q)
      rw [if_neg hpq, if_neg (fun hx => hpq (he ▸ hx))]
    · rw [show writeF (e :: fs) p c = e :: writeF fs p c from by
        simp only [writeF, if_neg he]]
      show (if e.1 = q then some e.2 else lookupF (writeF fs p c) q) =
        (if e.1 = q then some e.2 else lookupF fs q)
      by_cases heq : e.1 = q
      · rw [if_pos heq, if_pos heq]
      · rw [if_neg heq, if_neg heq, ih]

theorem lookupF_removeF_self (fs : FS) (p : List Char) :
    lookupF (removeF fs p) p = none := by
  induction fs with
  | nil => rfl
  | cons e fs ih =>
    by_cases he : e.1 = p
    · simp [removeF, he, ih]
    · simp [removeF, he, lookupF, ih]

theorem lookupF_removeF_ne (fs : FS) (p : List Char) {q : List Char} (h : q ≠ p) :
    lookupF (removeF fs p) q = lookupF fs q := by
  induction fs with
  | nil => rfl
  | cons e fs ih =>
    by_cases he : e.1 = p
    · rw [show removeF (e :: fs) p = removeF fs p from by
        simp only [removeF, if_pos he]]
      show lookupF (removeF fs p) q = (if e.1 = q then some e.2 else lookupF fs q)
      rw [if_neg (fun hx => h (he ▸ hx).symm), ih]
    · rw [show removeF (e :: fs) p = e :: removeF fs p from by
        simp only [removeF, if_neg he]]
      show (if e.1 = q then some e.2 else lookupF (removeF fs p) q) =
        (if e.1 = q then some e.2 else lookupF fs q)
      by_cases heq : e.1 = q
      · rw [if_pos heq, if_pos heq]
      · rw [if_neg heq, if_neg heq, ih]

theorem existsF_iff_mem (fs : FS) (p : List Char) :
    existsF fs p = true ↔ p ∈ pathsOf fs := by
  induction fs with
  | nil => simp [existsF, lookupF, pathsOf]
  | cons e fs ih =>
    by_cases he : e.1 = p
    · constructor
      · intro _
        simp only [pathsOf, List.map_cons, List.mem_cons]
        exact Or.inl he.symm
      · intro _
        show (if e.1 = p then some e.2 else lookupF fs p).isSome = true
        rw [if_pos he]
        rfl
    · constructor
      · intro hx
        have : existsF fs p = true := by
          show (lookupF fs p).isSome = true
          have hx2 : (if e.1 = p then some e.2 else lookupF fs p).isSome = true := hx
          rwa [if_neg he] at hx2
        simp only [pathsOf, List.map_cons, List.mem_cons]
        exact Or.inr (ih.mp this)
      · intro hm
        simp only [pathsOf, List.map_cons, List.mem_cons] at hm
        rcases hm with hm | hm
        · exact absurd hm.symm he
        · show (if e.1 = p then some e.2 else lookupF fs p).isSome = true
          rw [if_neg he]
          exact ih.mpr hm

theorem mem_pathsOf_writeF {fs : FS} {p c q : List Char}
    (h : q ∈ pathsOf (writeF fs p c)) : q = p ∨ q ∈ pathsOf fs := by
  induction fs with
  | nil => simpa [writeF, pathsOf] using h
  | cons e fs ih =>
    by_cases he : e.1 = p
    · rw [show writeF (e :: fs) p c = (p, c) :: fs from by simp [writeF, he]] at h
      simp only [pathsOf, List.map_cons, List.mem_cons] at h ⊢
      rcases h with h | h
      · exact Or.inl h
      · exact Or.inr (Or.inr h)
    · rw [show writeF (e :: fs) p c = e :: writeF fs p c from by simp [writeF, he]] at h
      simp only [pathsOf, List.map_cons, List.mem_cons] at h ⊢
      rcases h with h | h
      · exact Or.inr (Or.inl h)
      · rcases ih h with h2 | h2
        · exact Or.inl h2
        · exact Or.inr (Or.inr h2)

theorem mem_pathsOf_removeF {fs : FS} {p q : List Char}
    (h : q ∈ pathsOf (removeF fs p)) : q ∈ pathsOf fs ∧ q ≠ p := by
  induction fs with
  | nil => simp [removeF, pathsOf] at h
  | cons e fs ih =>
    by_cases he : e.1 = p
    · rw [show removeF (e :: fs) p = removeF fs p from by simp [removeF, he]] at h
      obtain ⟨h1, h2⟩ := ih h
      exact ⟨by simp [pathsOf, List.mem_cons]; right; simpa [pathsOf] using h1, h2⟩
    · rw [show removeF (e :: fs) p = e :: removeF fs p from by simp [removeF, he]] at h
      simp only [pathsOf, List.map_cons, List.mem_cons] at h ⊢
      rcases h with h | h
      · exact ⟨Or.inl h, fun hq => he (h ▸ hq)⟩
      · obtain ⟨h1, h2⟩ := ih h
        exact ⟨Or.inr (by simpa [pathsOf] using h1), h2⟩

theorem mem_pathsOf_copyF {tmpl : FS} : ∀ {dest : FS} {q : List Char},
    q ∈ pathsOf (copyF dest tmpl) → q ∈ pathsOf dest ∨ q ∈ pathsOf tmpl := by
  induction tmpl with
  | nil => intro dest q h; exact Or.inl h
  | cons e tmpl' ih =>
    intro dest q h
    rw [show copyF dest (e :: tmpl') = copyF (writeF dest e.1 e.2) tmpl' from rfl] at h
    rcases ih h with h2 | h2
    · rcases mem_pathsOf_writeF h2 with h3 | h3
      · exact Or.inr (by simp [pathsOf, h3])
      · exact Or.inl h3
    · refine Or.inr ?_
      simp only [pathsOf, List.map_cons, List.mem_cons]
      exact Or.inr (by simpa [pathsOf] using h2)

theorem processOne_skip {cfg : PWAConfig} {fs : FS} {p : List Char}
    (h : existsF fs p = false) : processOne cfg fs p = fs := by
  rw [processOne, if_neg (by simp [h])]

theorem processOne_lookup_ne (cfg : PWAConfig) (fs : FS) (r : List Char)
    {x : List Char} (h1 : x ≠ r) (h2 : x ≠ targetOf r) :
    lookupF (processOne cfg fs r) x = lookupF fs x := by
  rw [processOne]
  by_cases hex : existsF fs r = true
  · rw [if_pos hex, lookupF_removeF_ne _ _ h1, lookupF_writeF_ne _ _ _ h2]
  · rw [if_neg hex]

theorem processOne_exists_ne (cfg : PWAConfig) (fs : FS) (r : List Char)
    {x : List Char} (h1 : x ≠ r) (h2 : x ≠ targetOf r) :
    existsF (processOne cfg fs r) x = existsF fs x :=
  congrArg Option.isSome (processOne_lookup_ne cfg fs r h1 h2)

theorem foldPO_lookup_untouched (cfg : PWAConfig) (L : List (List Char)) :
    ∀ (fs : FS) (x : List Char), (∀ r ∈ L, r ≠ x ∧ targetOf r ≠ x) →
      lookupF (L.foldl (processOne cfg) fs) x = lookupF fs x := by
  induction L with
  | nil => intro fs x _; rfl
  | cons r L' ih =>
    intro fs x h
    rw [List.foldl_cons, ih _ _ (fun r' hr' => h r' (List.mem_cons_of_mem _ hr'))]
    exact processOne_lookup_ne cfg fs r
      (fun he => (h r (List.mem_cons_self _ _)).1 he.symm)
      (fun he => (h r (List.mem_cons_self _ _)).2 he.symm)

theorem foldPO_exists_untouched (cfg : PWAConfig) (L : List (List Char))
    (fs : FS) (x : List Char) (h : ∀ r ∈ L, r ≠ x ∧ targetOf r ≠ x) :
    existsF (L.foldl (processOne cfg) fs) x = existsF fs x :=
  congrArg Option.isSome (foldPO_lookup_untouched cfg L fs x h)

theorem foldPO_never_created (cfg : PWAConfig) (L : List (List Char)) :
    ∀ (fs : FS) (p : List Char), existsF fs p = false →
      (∀ a ∈ L, targetOf a ≠ p) →
      existsF (L.foldl (processOne cfg) fs) p = false := by
  induction L with
  | nil => intro fs p h _; exact h
  | cons r L' ih =>
    intro fs p h hT
    rw [List.foldl_cons]
    apply ih
    · by_cases hex : existsF fs r = true
      · rw [processOne, if_pos hex]
        show (lookupF (removeF _ r) p).isSome = false
        by_cases hpr : p = r
        · subst hpr; rw [lookupF_removeF_self]; rfl
        · rw [lookupF_removeF_ne _ _ hpr,
            lookupF_writeF_ne _ _ _ (fun he => hT r (List.mem_cons_self _ _) he.symm)]
          exact h
      · rw [processOne_skip (by simpa using hex)]; exact h
    · exact fun a ha => hT a (List.mem_cons_of_mem _ ha)

theorem foldPO_processed (cfg : PWAConfig) (L : List (List Char)) :
    ∀ (fs : FS) (p : List Char), p ∈ L → existsF fs p = true → L.Nodup →
      (∀ a ∈ L, ∀ b ∈ L, targetOf a ≠ b) →
      (∀ a ∈ L, ∀ b ∈ L, a ≠ b → targetOf a ≠ targetOf b) →
      lookupF (L.foldl (processOne cfg) fs) (targetOf p) =
        some (processTemplate (readFileF fs p) cfg) ∧
      existsF (L.foldl (processOne cfg) fs) p = false := by
  induction L with
  | nil => intro fs p hp; exact absurd hp (List.not_mem_nil p)
  | cons r L' ih =>
    intro fs p hp hex hnd hAB hInj
    rw [List.foldl_cons]
    by_cases hrp : r = p
    · subst hrp
      have htr : targetOf r ≠ r :=
        hAB r (List.mem_cons_self _ _) r (List.mem_cons_self _ _)
      have h1 : lookupF (processOne cfg fs r) (targetOf r) =
          some (processTemplate (readFileF fs r) cfg) := by
        rw [processOne, if_pos hex, lookupF_removeF_ne _ _ htr, lookupF_writeF_self]
      have h2 : existsF (processOne cfg fs r) r = false := by
        rw [processOne, if_pos hex]
        show (lookupF (removeF _ r) r).isSome = false
        rw [lookupF_removeF_self]
        rfl
      have hrnot : r ∉ L' := (List.nodup_cons.mp hnd).1
      constructor
      · rw [foldPO_lookup_untouched cfg L' _ _ ?_, h1]
        intro r' hr'
        have hr'r : r' ≠ r := fun he => hrnot (he ▸ hr')
        exact ⟨Ne.symm (hAB r (List.mem_cons_self _ _) r' (List.mem_cons_of_mem _ hr')),
          hInj r' (List.mem_cons_of_mem _ hr') r (List.mem_cons_self _ _) hr'r⟩
      · rw [foldPO_exists_untouched cfg L' _ r ?_, h2]
        intro r' hr'
        exact ⟨fun he => hrnot (he ▸ hr'),
          hAB r' (List.mem_cons_of_mem _ hr') r (List.mem_cons_self _ _)⟩
    · have hpL' : p ∈ L' := by
        rcases List.mem_cons.mp hp with h | h
        · exact absurd h.symm hrp
        · exact h
      have hpr : p ≠ r := fun he => hrp he.symm
      have hpt : p ≠ targetOf r :=
        fun he => hAB r (List.mem_cons_self _ _) p hp he.symm
      have hex' : existsF (processOne cfg fs r) p = true := by
        rw [processOne_exists_ne cfg fs r hpr hpt]; exact hex
      have hread : readFileF (processOne cfg fs r) p = readFileF fs p := by
        unfold readFileF
        rw [processOne_lookup_ne cfg fs r hpr hpt]
      have hres := ih (processOne cfg fs r) p hpL' hex' (List.nodup_cons.mp hnd).2
        (fun a ha b hb => hAB a (List.mem_cons_of_mem _ ha) b (List.mem_cons_of_mem _ hb))
        (fun a ha b hb => hInj a (List.mem_cons_of_mem _ ha) b (List.mem_cons_of_mem _ hb))
      rw [hread] at hres
      exact hres

theorem foldPO_paths (cfg : PWAConfig) (L : List (List Char)) :
    ∀ (fs : FS) (q : List Char), q ∈ pathsOf (L.foldl (processOne cfg) fs) →
      (q ∈ pathsOf fs ∧ q ∉ L) ∨ q ∈ L.map targetOf := by
  induction L with
  | nil => intro fs q h; exact Or.inl ⟨h, List.not_mem_nil q⟩
  | cons r L' ih =>
    intro fs q h
    rw [List.foldl_cons] at h
    rcases ih _ _ h with ⟨hq, hnL'⟩ | hmap
    · by_cases hex : existsF fs r = true
      · rw [processOne, if_pos hex] at hq
        obtain ⟨hq2, hqr⟩ := mem_pathsOf_removeF hq
        rcases mem_pathsOf_writeF hq2 with he | hq3
        · exact Or.inr (by rw [List.map_cons]; exact he ▸ List.mem_cons_self _ _)
        · refine Or.inl ⟨hq3, fun hc => ?_⟩
          rcases List.mem_cons.mp hc with he | hL'
          · exact hqr he
          · exact hnL' hL'
      · rw [processOne_skip (by simpa using hex)] at hq
        refine Or.inl ⟨hq, fun hc => ?_⟩
        rcases List.mem_cons.mp hc with he | hL'
        · subst he
          rw [(existsF_iff_mem fs q).mpr hq] at hex
          exact hex rfl
        · exact hnL' hL'
    · exact Or.inr (by rw [List.map_cons]; exact List.mem_cons_of_mem _ hmap)

/-! ### Decidable facts about the fixed processable list -/

theorem ftp_nodup : filesToProcess.Nodup := by decide

theorem ftp_t_not_mem : ∀ a ∈ filesToProcess, ∀ b ∈ filesToProcess,
    targetOf a ≠ b := by decide

theorem ftp_t_inj : ∀ a ∈ filesToProcess, ∀ b ∈ filesToProcess,
    a ≠ b → targetOf a ≠ targetOf b := by decide

theorem ftp_t_no_ejs : ∀ a ∈ filesToProcess,
    occursB ejsText (targetOf a) = false := by decide

theorem ftp_t_not_comp : ∀ a ∈ filesToProcess,
    compDir.isPrefixOf (targetOf a) = false := by decide

theorem ftp_not_comp : ∀ a ∈ filesToProcess,
    compDir.isPrefixOf a = false := by decide

/-! ### Styling-variant resolution lemmas -/

theorem ipo_append_drop {pat s : List Char} (h : pat.isPrefixOf s = true) :
    pat ++ s.drop pat.length = s := by
  obtain ⟨t, ht⟩ := ipo_elim h
  subst ht
  rw [List.drop_left]

theorem mem_componentEntries {fs : FS} {n : List Char}
    (h : n ∈ componentEntries fs) :
    ∃ p ∈ pathsOf fs, compDir.isPrefixOf p = true ∧ n = p.drop compDir.length := by
  unfold componentEntries at h
  rw [List.mem_filterMap] at h
  obtain ⟨e, he, hfe⟩ := h
  by_cases hc : compDir.isPrefixOf e.1 = true
  · rw [if_pos hc] at hfe
    exact ⟨e.1, List.mem_map_of_mem _ he, hc, (Option.some.inj hfe).symm⟩
  · rw [if_neg hc] at hfe
    exact absurd hfe (by simp)

theorem foldRemove_lookup (ns : List (List Char)) :
    ∀ (fs : FS) (x : List Char), compDir.isPrefixOf x = false →
      lookupF (ns.foldl (fun acc n => removeF acc (compDir ++ n)) fs) x =
        lookupF fs x := by
  induction ns with
  | nil => intro fs x _; rfl
  | cons n ns' ih =>
    intro fs x hx
    rw [List.foldl_cons, ih _ _ hx, lookupF_removeF_ne _ _ ?_]
    intro he
    rw [he, ipo_append_self] at hx
    exact absurd hx (by simp)

theorem foldRemove_paths (ns : List (List Char)) :
    ∀ (fs : FS) (q : List Char),
      q ∈ pathsOf (ns.foldl (fun acc n => removeF acc (compDir ++ n)) fs) →
      q ∈ pathsOf fs := by
  induction ns with
  | nil => intro fs q h; exact h
  | cons n ns' ih =>
    intro fs q h
    rw [List.foldl_cons] at h
    exact (mem_pathsOf_removeF (ih _ _ h)).1

theorem foldRename_lookup (ns : List (List Char)) :
    ∀ (fs : FS) (x : List Char), compDir.isPrefixOf x = false →
      lookupF (ns.foldl (fun acc n =>
        renameF acc (compDir ++ n) (compDir ++ replaceFirstL tailTag [] n)) fs) x =
        lookupF fs x := by
  induction ns with
  | nil => intro fs x _; rfl
  | cons n ns' ih =>
    intro fs x hx
    rw [List.foldl_cons, ih _ _ hx]
    unfold renameF
    rw [lookupF_writeF_ne _ _ _ ?hnew, lookupF_removeF_ne _ _ ?hold]
    case hnew =>
      intro he
      rw [he, ipo_append_self] at hx
      exact absurd hx (by simp)
    case hold =>
      intro he
      rw [he, ipo_append_self] at hx
      exact absurd hx (by simp)

theorem foldRename_paths (P : List Char → Prop) (ns : List (List Char)) :
    ∀ (fs : FS), (∀ q ∈ pathsOf fs, P q) →
      (∀ n ∈ ns, P (compDir ++ replaceFirstL tailTag [] n)) →
      ∀ q ∈ pathsOf (ns.foldl (fun acc n =>
        renameF acc (compDir ++ n) (compDir ++ replaceFirstL tailTag [] n)) fs), P q := by
  induction ns with
  | nil => intro fs hfs _ q hq; exact hfs q hq
  | cons n ns' ih =>
    intro fs hfs hns q hq
    rw [List.foldl_cons] at hq
    refine ih _ ?_ (fun m hm => hns m (List.mem_cons_of_mem _ hm)) q hq
    intro x hx
    unfold renameF at hx
    rcases mem_pathsOf_writeF hx with he | hx2
    · exact he ▸ hns n (List.mem_cons_self _ _)
    · exact hfs x (mem_pathsOf_removeF hx2).1

theorem resolveStyling_lookup {cfg : PWAConfig} {fs fs3 : FS}
    (h : resolveStyling cfg fs = .ok fs3) {x : List Char}
    (hx : compDir.isPrefixOf x = false) : lookupF fs3 x = lookupF fs x := by
  unfold resolveStyling at h
  by_cases hcd : compDirExists fs = false
  · rw [if_pos hcd] at h
    exact absurd h (by simp)
  · rw [if_neg hcd] at h
    by_cases htw : cfg.useTailwind = false
    · rw [if_pos htw] at h
      rw [← Except.ok.inj h]
      exact foldRemove_lookup _ fs x hx
    · rw [if_neg htw] at h
      rw [← Except.ok.inj h]
      rw [foldRename_lookup _ _ x hx]
      exact foldRemove_lookup _ fs x hx

theorem resolveStyling_no_ejs {cfg : PWAConfig} {fs fs3 : FS}
    (h : resolveStyling cfg fs = .ok fs3)
    (hfs : ∀ q ∈ pathsOf fs, occursB ejsText q = false)
    (hstrip : ∀ q ∈ pathsOf fs, compDir.isPrefixOf q = true →
      occursB ejsText
        (compDir ++ replaceFirstL tailTag [] (q.drop compDir.length)) = false) :
    ∀ q ∈ pathsOf fs3, occursB ejsText q = false := by
  unfold resolveStyling at h
  by_cases hcd : compDirExists fs = false
  · rw [if_pos hcd] at h
    exact absurd h (by simp)
  · rw [if_neg hcd] at h
    by_cases htw : cfg.useTailwind = false
    · rw [if_pos htw] at h
      rw [← Except.ok.inj h]
      intro q hq
      exact hfs q (foldRemove_paths _ fs q hq)
    · rw [if_neg htw] at h
      rw [← Except.ok.inj h]
      refine foldRename_paths _ _ _ ?_ ?_
      · intro q hq
        exact hfs q (foldRemove_paths _ fs q hq)
      · intro n hn
        obtain ⟨p, hp, hpc, hnp⟩ := mem_componentEntries hn
        have hp2 : p ∈ pathsOf fs := foldRemove_paths _ fs p hp
        rw [hnp]
        exact hstrip p hp2 hpc

theorem occursB_split (pat t u : List Char) : occursB pat (t ++ (pat ++ u)) = true := by
  induction t with
  | nil =>
    cases pat with
    | nil =>
      cases u with
      | nil => rfl
      | cons c u' => rfl
    | cons p pt =>
      rw [List.nil_append, List.cons_append, occursB_cons]
      have := ipo_append_self (p :: pt) u
      rw [List.cons_append] at this
      rw [this]
      rfl
  | cons c t' ih =>
    rw [List.cons_append, occursB_cons, ih]
    simp

theorem suffix_elim {pat s : List Char} (h : pat.isSuffixOf s = true) :
    ∃ t, s = t ++ pat := by
  rw [List.isSuffixOf] at h
  obtain ⟨u, hu⟩ := ipo_elim h
  refine ⟨u.reverse, ?_⟩
  have := congrArg List.reverse hu
  simpa using this

theorem not_suffix_of_no_occ {pat s : List Char} (h : occursB pat s = false) :
    pat.isSuffixOf s = false := by
  cases hs : pat.isSuffixOf s
  · rfl
  · obtain ⟨t, ht⟩ := suffix_elim hs
    rw [ht, show t ++ pat = t ++ (pat ++ []) from by simp, occursB_split] at h
    exact absurd h (by simp)

/-! ### Claim theorems -/

theorem plainParts_mem {cs : List Chunk} {s : List Char}
    (h : Chunk.plain s ∈ cs) : s ∈ plainParts cs :=
  List.mem_filterMap.mpr ⟨Chunk.plain s, h, rfl⟩

/-- C1 counterexample: the spec claims the useTailwind interpolation
token is replaced by the word true or false, but processTemplate never
substitutes it: on the content consisting of exactly that token, with a
configuration whose useTailwind is true, the output is the token
itself, not the word true. -/
theorem claim1_counterexample :
    processTemplate tokUseTailwind cfgReactTw = tokUseTailwind ∧
    cfgReactTw.useTailwind = true ∧
    tokUseTailwind ≠ "true".toList :=
  ⟨by decide, by decide, by decide⟩

/-- C1 (amended): the substitution pass replaces every occurrence of
each of the five pwa interpolation tokens (pwa.name, pwa.shortName,
pwa.themeColor, pwa.backgroundColor, pwa.displayMode) with the
corresponding Configuration field's string value; the useTailwind token
is not an interpolation token of the implementation and passes through
verbatim.  Stated over contents that decompose into token occurrences
and literal stretches free of the token-opening character, for values
free of the token-opening and dollar characters, when no registered
marker occurs in the substituted result. -/
theorem claim1_amended (cfg : PWAConfig) (cs : List Chunk)
    (hplain : ∀ s ∈ plainParts cs, '<' ∉ s)
    (hvals : ∀ i : Fin 6, i.val < 5 → '<' ∉ valAt cfg i)
    (_hdollar : ∀ i : Fin 6, i.val < 5 → '$' ∉ valAt cfg i)
    (hmk : ∀ pr ∈ templatePlaceholders cfg.framework,
      occursB pr.1 (substChunks cfg cs) = false) :
    processTemplate (joinChunks cs) cfg = substChunks cfg cs :=
  processTemplate_chunks cfg cs (fun s hs => hplain s (plainParts_mem hs)) hvals hmk

/-- Witness for claim1_amended at a concrete decomposition with a
repeated pwa.name token and a useTailwind token. -/
theorem claim1_amended_witness :
    ((∀ s ∈ plainParts chunksDemo, '<' ∉ s) ∧
     (∀ i : Fin 6, i.val < 5 → '<' ∉ valAt cfgReactTw i) ∧
     (∀ i : Fin 6, i.val < 5 → '$' ∉ valAt cfgReactTw i) ∧
     (∀ pr ∈ templatePlaceholders cfgReactTw.framework,
       occursB pr.1 (substChunks cfgReactTw chunksDemo) = false)) ∧
    processTemplate (joinChunks chunksDemo) cfgReactTw =
      substChunks cfgReactTw chunksDemo :=
  ⟨⟨by decide, by decide, by decide, by decide⟩,
   claim1_amended cfgReactTw chunksDemo (by decide) (by decide) (by decide)
     (by decide)⟩

/-- C4 counterexample: the useTailwind token is an interpolation token
per the spec and occurs once in the content, yet after one substitution
pass one occurrence of its exact syntax remains, contradicting the
zero-remaining-occurrences property. -/
theorem claim4_counterexample :
    countOcc tokUseTailwind tokUseTailwind = 1 ∧
    countOcc tokUseTailwind (processTemplate tokUseTailwind cfgVueNoTw) = 1 :=
  ⟨by decide, by decide⟩

/-- C4 (amended): restricted to the five pwa interpolation tokens, one
substitution pass leaves zero occurrences of the token's exact syntax,
and the number of original occurrences is the number of token pieces of
the decomposition, each of which is rewritten to exactly one copy of
the literal field value (third conjunct). -/
theorem claim4_amended (cfg : PWAConfig) (cs : List Chunk) (i : Fin 6)
    (hi : i.val < 5)
    (hplain : ∀ s ∈ plainParts cs, '<' ∉ s)
    (hvals : ∀ j : Fin 6, j.val < 5 → '<' ∉ valAt cfg j)
    (_hdollar : ∀ j : Fin 6, j.val < 5 → '$' ∉ valAt cfg j)
    (hmk : ∀ pr ∈ templatePlaceholders cfg.framework,
      occursB pr.1 (substChunks cfg cs) = false) :
    countOcc (tokAt i) (joinChunks cs) = countTk i cs ∧
    countOcc (tokAt i) (processTemplate (joinChunks cs) cfg) = 0 ∧
    processTemplate (joinChunks cs) cfg = substChunks cfg cs := by
  have hplain' : ∀ s, Chunk.plain s ∈ cs → '<' ∉ s :=
    fun s hs => hplain s (plainParts_mem hs)
  have hmain := processTemplate_chunks cfg cs hplain' hvals hmk
  refine ⟨countOcc_chunks i cs hplain', ?_, hmain⟩
  rw [hmain]
  exact countOcc_substChunks i hi cfg cs hplain' hvals

/-- Witness for claim4_amended at the pwa.name token over a
decomposition containing it twice. -/
theorem claim4_amended_witness :
    (((0 : Fin 6)).val < 5 ∧
     (∀ s ∈ plainParts chunksDemo, '<' ∉ s) ∧
     (∀ j : Fin 6, j.val < 5 → '<' ∉ valAt cfgVueNoTw j) ∧
     (∀ j : Fin 6, j.val < 5 → '$' ∉ valAt cfgVueNoTw j) ∧
     (∀ pr ∈ templatePlaceholders cfgVueNoTw.framework,
       occursB pr.1 (substChunks cfgVueNoTw chunksDemo) = false)) ∧
    (countOcc (tokAt 0) (joinChunks chunksDemo) = countTk 0 chunksDemo ∧
     countOcc (tokAt 0) (processTemplate (joinChunks chunksDemo) cfgVueNoTw) = 0 ∧
     processTemplate (joinChunks chunksDemo) cfgVueNoTw =
       substChunks cfgVueNoTw chunksDemo) :=
  ⟨⟨by decide, by decide, by decide, by decide, by decide⟩,
   claim4_amended cfgVueNoTw chunksDemo 0 (by decide) (by decide) (by decide)
     (by decide) (by decide)⟩

/-- C5 counterexample: recognition is not whitespace-insensitive: the
zero-whitespace form of the pwa.name token is left verbatim while the
single-space form is substituted. -/
theorem claim5_counterexample :
    processTemplate "<%=pwa.name%>".toList cfgReactTw = "<%=pwa.name%>".toList ∧
    processTemplate "<%= pwa.name %>".toList cfgReactTw = "Demo App".toList :=
  ⟨by decide, by decide⟩

/-- C5 (amended): token recognition is an exact match on the
single-space form: for every recognized field path and every whitespace
arrangement between the delimiters and the path other than exactly one
space on each side, the token-shaped string passes through
processTemplate unchanged. -/
theorem claim5_exact_recognition (cfg : PWAConfig) (p ws1 ws2 : List Char)
    (hp : p ∈ sixPaths) (hws1 : ∀ c ∈ ws1, wsChar c)
    (hws2 : ∀ c ∈ ws2, wsChar c) (hne : ¬(ws1 = [' '] ∧ ws2 = [' '])) :
    processTemplate (wsTok p ws1 ws2) cfg = wsTok p ws1 ws2 :=
  processTemplate_id cfg (fun i _ => wsTok_occursB i hp hws1 hws2 hne)
    (fun pr hpr => occursB_head_not_mem (mark_head cfg.framework pr hpr)
      (slash_not_mem_wsTok hp hws1 hws2))

/-- Witness for claim5_exact_recognition: the zero-left-whitespace form
of pwa.name is left unchanged. -/
theorem claim5_witness :
    ("pwa.name".toList ∈ sixPaths ∧
     (∀ c ∈ ([] : List Char), wsChar c) ∧
     (∀ c ∈ [' '], wsChar c) ∧
     ¬(([] : List Char) = [' '] ∧ ([' '] : List Char) = [' '])) ∧
    processTemplate (wsTok "pwa.name".toList [] [' ']) cfgReactTw =
      wsTok "pwa.name".toList [] [' '] :=
  ⟨⟨by decide, by decide, by decide, by decide⟩,
   claim5_exact_recognition cfgReactTw "pwa.name".toList [] [' ']
     (by decide) (by decide) (by decide) (by decide)⟩

/-- C9: a content in which none of the five substituted interpolation
tokens and none of the current framework's registered markers occur
passes through processTemplate verbatim: unmatched placeholder tokens
and all surrounding text are preserved and no error is raised (the
function is total). -/
theorem claim9_passthrough (cfg : PWAConfig) (content : List Char)
    (htoks : ∀ i : Fin 6, i.val < 5 → occursB (tokAt i) content = false)
    (hmk : ∀ pr ∈ templatePlaceholders cfg.framework,
      occursB pr.1 content = false) :
    processTemplate content cfg = content :=
  processTemplate_id cfg htoks hmk

/-- Witness for claim9_passthrough: a content holding the unmatched
useTailwind token, an unknown-field token and a foreign framework's
marker is preserved exactly. -/
theorem claim9_witness :
    ((∀ i : Fin 6, i.val < 5 →
       occursB (tokAt i)
         "<%= useTailwind %> <%= pwa.iconPath %> // vuePlaceholder".toList = false) ∧
     (∀ pr ∈ templatePlaceholders cfgReactTw.framework,
       occursB pr.1
         "<%= useTailwind %> <%= pwa.iconPath %> // vuePlaceholder".toList = false)) ∧
    processTemplate
        "<%= useTailwind %> <%= pwa.iconPath %> // vuePlaceholder".toList
        cfgReactTw =
      "<%= useTailwind %> <%= pwa.iconPath %> // vuePlaceholder".toList :=
  ⟨⟨by decide, by decide⟩,
   claim9_passthrough cfgReactTw _ (by decide) (by decide)⟩

/-- C10: for the vue and svelte frameworks every registered marker maps
to the empty snippet, so processTemplate's output does not depend on
useTailwind: two configurations differing only in that flag produce
identical outputs on every content. -/
theorem claim10_tw_independent (cfg : PWAConfig) (b1 b2 : Bool)
    (content : List Char)
    (hfw : cfg.framework = .vue ∨ cfg.framework = .svelte) :
    processTemplate content { cfg with useTailwind := b1 } =
      processTemplate content { cfg with useTailwind := b2 } := by
  rcases hfw with hfw | hfw <;>
    simp only [processTemplate, hfw, templatePlaceholders] <;>
    cases b1 <;> cases b2 <;> rfl

/-- Witness for claim10_tw_independent on a vue configuration and a
content containing the vue marker. -/
theorem claim10_witness :
    (cfgVueNoTw.framework = Framework.vue ∨
     cfgVueNoTw.framework = Framework.svelte) ∧
    processTemplate "x // vuePlaceholder y".toList
        { cfgVueNoTw with useTailwind := true } =
      processTemplate "x // vuePlaceholder y".toList
        { cfgVueNoTw with useTailwind := false } :=
  ⟨Or.inl rfl,
   claim10_tw_independent cfgVueNoTw true false "x // vuePlaceholder y".toList
     (Or.inl rfl)⟩

theorem foldRF_id_snd (L : List (List Char × List Char)) {s : List Char}
    (h : ∀ pr ∈ L, occursB pr.1 s = false) :
    L.foldl (fun acc pr => replaceFirstL pr.1 pr.2 acc) s = s :=
  foldRF_id Prod.snd L h

theorem foldRF_id_empty (L : List (List Char × List Char)) {s : List Char}
    (h : ∀ pr ∈ L, occursB pr.1 s = false) :
    L.foldl (fun acc pr => replaceFirstL pr.1 [] acc) s = s :=
  foldRF_id (fun _ => []) L h

/-- C2 counterexample: marker replacement uses a first-occurrence
string replace, so with two adjacent occurrences of the vue marker one
occurrence of the registered marker's original text survives in the
output. -/
theorem claim2_counterexample :
    processTemplate (markVue ++ markVue) cfgVueNoTw = markVue ∧
    occursB markVue (processTemplate (markVue ++ markVue) cfgVueNoTw) = true :=
  ⟨by decide, by decide⟩

/-- C2 (amended): only the first occurrence of each registered marker
is replaced, by its snippet when useTailwind is enabled and by the
empty string when disabled; later occurrences of the marker remain.
Stated for a content whose first occurrence of the marker m sits
between a and b, when no substituted interpolation token occurs, the
markers registered before m do not occur, and the markers registered
after m do not occur in the rewritten content. -/
theorem claim2_amended (cfg : PWAConfig) (a b m snip : List Char)
    (preL postL : List (List Char × List Char))
    (hreg : templatePlaceholders cfg.framework = preL ++ (m, snip) :: postL)
    (htoks : ∀ i : Fin 6, i.val < 5 → occursB (tokAt i) (a ++ m ++ b) = false)
    (hpre : ∀ pr ∈ preL, occursB pr.1 (a ++ m ++ b) = false)
    (hfirst : noEarlyOcc m b a = true)
    (hpost : ∀ pr ∈ postL, occursB pr.1
      (a ++ (if cfg.useTailwind then snip else []) ++ b) = false) :
    processTemplate (a ++ m ++ b) cfg =
      a ++ (if cfg.useTailwind then snip else []) ++ b := by
  have hm_ne : m ≠ [] := by
    have hmem : (m, snip) ∈ templatePlaceholders cfg.framework := by
      rw [hreg]
      exact List.mem_append_right _ (List.mem_cons_self _ _)
    have hh := mark_head cfg.framework (m, snip) hmem
    intro he
    rw [he] at hh
    simp at hh
  simp only [processTemplate]
  rw [show replaceAllL tokPwaName cfg.pwa.name (a ++ m ++ b) = a ++ m ++ b from
    replaceAllL_id (htoks 0 (by decide))]
  rw [show replaceAllL tokPwaShortName cfg.pwa.shortName (a ++ m ++ b) = a ++ m ++ b from
    replaceAllL_id (htoks 1 (by decide))]
  rw [show replaceAllL tokPwaThemeColor cfg.pwa.themeColor (a ++ m ++ b) = a ++ m ++ b from
    replaceAllL_id (htoks 2 (by decide))]
  rw [show replaceAllL tokPwaBackgroundColor cfg.pwa.backgroundColor (a ++ m ++ b) = a ++ m ++ b from
    replaceAllL_id (htoks 3 (by decide))]
  rw [show replaceAllL tokPwaDisplayMode cfg.pwa.displayMode.text (a ++ m ++ b) = a ++ m ++ b from
    replaceAllL_id (htoks 4 (by decide))]
  by_cases hTW : cfg.useTailwind = true
  · rw [if_pos hTW, if_pos hTW]
    rw [if_pos hTW] at hpost
    rw [hreg, List.foldl_append, foldRF_id_snd preL hpre]
    simp only [List.foldl_cons]
    rw [replaceFirstL_split hm_ne snip hfirst]
    exact foldRF_id_snd postL hpost
  · rw [if_neg hTW, if_neg hTW]
    rw [if_neg hTW] at hpost
    rw [hreg, List.foldl_append, foldRF_id_empty preL hpre]
    simp only [List.foldl_cons]
    rw [replaceFirstL_split hm_ne [] hfirst]
    exact foldRF_id_empty postL hpost

/-- Witness for claim2_amended: the first react marker between literal
stretches, with useTailwind enabled, is rewritten to its snippet. -/
theorem claim2_amended_witness :
    (templatePlaceholders cfgReactTw.framework =
      [] ++ (markReactImports, snipImports) ::
        [(markReactPackage, snipPackage), (markReactVite, snipVite),
         (markReactViteFn, snipViteFn)] ∧
     (∀ i : Fin 6, i.val < 5 →
       occursB (tokAt i) ("x ".toList ++ markReactImports ++ " y".toList) = false) ∧
     (∀ pr ∈ ([] : List (List Char × List Char)),
       occursB pr.1 ("x ".toList ++ markReactImports ++ " y".toList) = false) ∧
     noEarlyOcc markReactImports " y".toList "x ".toList = true ∧
     (∀ pr ∈ [(markReactPackage, snipPackage), (markReactVite, snipVite),
              (markReactViteFn, snipViteFn)],
       occursB pr.1 ("x ".toList ++
         (if cfgReactTw.useTailwind then snipImports else []) ++ " y".toList) = false)) ∧
    processTemplate ("x ".toList ++ markReactImports ++ " y".toList) cfgReactTw =
      "x ".toList ++ (if cfgReactTw.useTailwind then snipImports else []) ++ " y".toList :=
  ⟨⟨by decide, by decide, by decide, by decide, by decide⟩,
   claim2_amended cfgReactTw "x ".toList " y".toList markReactImports snipImports
     [] [(markReactPackage, snipPackage), (markReactVite, snipVite),
         (markReactViteFn, snipViteFn)]
     (by decide) (by decide) (by decide) (by decide) (by decide)⟩

/-- C3: the styling-variant filter is hardcoded to the
".tailwindcss.tsx" suffix for every framework, so for the shipped
svelte template (whose variants end in ".tailwindcss.svelte") the
claimed property fails: with useTailwind = false the tailwind-tagged
component file survives in src/components, and with useTailwind = true
every svelte component is deleted, so the final name sets differ
between the two flag values. -/
theorem claim3_eval :
    (generateProject cfgSvelteNoTw svelteTmpl []).map
        (fun r => componentEntries r.1) =
      .ok ["PwaFeaturesGrid.svelte".toList,
           "PwaFeaturesGrid.tailwindcss.svelte".toList] ∧
    (generateProject cfgSvelteTw svelteTmpl []).map
        (fun r => componentEntries r.1) = .ok [] :=
  ⟨rfl, rfl⟩

/-- C6: a path of the fixed processable list that does not exist in the
destination after the base copy is skipped silently (it never appears,
and the pass — a total function — completes), while every other listed
path that does exist is still transformed: its stripped sibling ends up
holding the processed content and the marker file is deleted. -/
theorem claim6_skip_absent (cfg : PWAConfig) (fs : FS) (p q : List Char)
    (hp : p ∈ filesToProcess) (hq : q ∈ filesToProcess) (_hpq : p ≠ q)
    (hpmiss : existsF fs p = false) (hqex : existsF fs q = true) :
    existsF (substitutionPass cfg fs) p = false ∧
    lookupF (substitutionPass cfg fs) (targetOf q) =
      some (processTemplate (readFileF fs q) cfg) ∧
    existsF (substitutionPass cfg fs) q = false := by
  have hq2 := foldPO_processed cfg filesToProcess fs q hq hqex ftp_nodup
    ftp_t_not_mem ftp_t_inj
  exact ⟨foldPO_never_created cfg filesToProcess fs p hpmiss
    (fun a ha => ftp_t_not_mem a ha p hp), hq2.1, hq2.2⟩

/-- Witness for claim6_skip_absent: package.json.ejs is absent,
index.html.ejs is present and still transformed. -/
theorem claim6_witness :
    ("package.json.ejs".toList ∈ filesToProcess ∧
     "index.html.ejs".toList ∈ filesToProcess ∧
     "package.json.ejs".toList ≠ "index.html.ejs".toList ∧
     existsF vueDemoTmpl "package.json.ejs".toList = false ∧
     existsF vueDemoTmpl "index.html.ejs".toList = true) ∧
    (existsF (substitutionPass cfgVueNoTw vueDemoTmpl)
        "package.json.ejs".toList = false ∧
     lookupF (substitutionPass cfgVueNoTw vueDemoTmpl)
         (targetOf "index.html.ejs".toList) =
       some (processTemplate (readFileF vueDemoTmpl "index.html.ejs".toList)
         cfgVueNoTw) ∧
     existsF (substitutionPass cfgVueNoTw vueDemoTmpl)
       "index.html.ejs".toList = false) :=
  ⟨⟨by decide, by decide, by decide, by decide, by decide⟩,
   claim6_skip_absent cfgVueNoTw vueDemoTmpl "package.json.ejs".toList
     "index.html.ejs".toList (by decide) (by decide) (by decide) (by decide)
     (by decide)⟩

/-- C7: after a successful materialization, every listed path that
existed post-copy has had its processed text written to the sibling
path with the .ejs extension stripped and the .ejs file deleted, and no
path of the final tree carries the .ejs extension, provided the
template's .ejs paths are exactly drawn from the fixed list, the
pre-existing destination has no .ejs paths, and stripping the tailwind
tag from a component name never produces an .ejs name. -/
theorem claim7_materialization (cfg : PWAConfig) (tmpl dest fs3 : FS)
    (cmds : List (List Char))
    (hok : generateProject cfg tmpl dest = .ok (fs3, cmds))
    (hTp : ∀ q ∈ pathsOf tmpl, occursB ejsText q = true → q ∈ filesToProcess)
    (hDp : ∀ q ∈ pathsOf dest, occursB ejsText q = false)
    (hRn : ∀ q ∈ pathsOf tmpl ++ pathsOf dest, compDir.isPrefixOf q = true →
      occursB ejsText
        (compDir ++ replaceFirstL tailTag [] (q.drop compDir.length)) = false) :
    (∀ p ∈ filesToProcess, existsF (copyF dest tmpl) p = true →
      lookupF fs3 (targetOf p) =
        some (processTemplate (readFileF (copyF dest tmpl) p) cfg) ∧
      existsF fs3 p = false) ∧
    (∀ q ∈ pathsOf fs3, ejsText.isSuffixOf q = false) := by
  have hok3 : (match resolveStyling cfg (substitutionPass cfg (copyF dest tmpl)) with
      | Except.error e => (Except.error e : Except GenError (FS × List (List Char)))
      | Except.ok f => Except.ok (f, [installCommand])) = Except.ok (fs3, cmds) := hok
  have hok2 : resolveStyling cfg (substitutionPass cfg (copyF dest tmpl)) =
      .ok fs3 := by
    cases hrs : resolveStyling cfg (substitutionPass cfg (copyF dest tmpl)) with
    | error e =>
      rw [hrs] at hok3
      have hok4 : (Except.error e : Except GenError (FS × List (List Char))) =
          .ok (fs3, cmds) := hok3
      exact absurd hok4 (by simp)
    | ok f =>
      rw [hrs] at hok3
      have hok4 : (Except.ok (f, [installCommand]) :
          Except GenError (FS × List (List Char))) = .ok (fs3, cmds) := hok3
      have h4 : f = fs3 := congrArg Prod.fst (Except.ok.inj hok4)
      rw [← h4]
  constructor
  · intro p hp hex
    have h2 := foldPO_processed cfg filesToProcess (copyF dest tmpl) p hp hex
      ftp_nodup ftp_t_not_mem ftp_t_inj
    constructor
    · rw [resolveStyling_lookup hok2 (ftp_t_not_comp p hp)]
      exact h2.1
    · show (lookupF fs3 p).isSome = false
      rw [resolveStyling_lookup hok2 (ftp_not_comp p hp)]
      exact h2.2
  · have hfs2 : ∀ q ∈ pathsOf (substitutionPass cfg (copyF dest tmpl)),
        occursB ejsText q = false := by
      intro q hq
      rcases foldPO_paths cfg filesToProcess (copyF dest tmpl) q hq with
        ⟨hq1, hnot⟩ | hmap
      · rcases mem_pathsOf_copyF hq1 with hd | ht
        · exact hDp q hd
        · cases hocc : occursB ejsText q
          · rfl
          · exact absurd (hTp q ht hocc) hnot
      · obtain ⟨a, ha, hae⟩ := List.mem_map.mp hmap
        exact hae ▸ ftp_t_no_ejs a ha
    have hstrip2 : ∀ q ∈ pathsOf (substitutionPass cfg (copyF dest tmpl)),
        compDir.isPrefixOf q = true →
        occursB ejsText
          (compDir ++ replaceFirstL tailTag [] (q.drop compDir.length)) = false := by
      intro q hq hc
      rcases foldPO_paths cfg filesToProcess (copyF dest tmpl) q hq with
        ⟨hq1, _⟩ | hmap
      · rcases mem_pathsOf_copyF hq1 with hd | ht
        · exact hRn q (List.mem_append_right _ hd) hc
        · exact hRn q (List.mem_append_left _ ht) hc
      · obtain ⟨a, ha, hae⟩ := List.mem_map.mp hmap
        have hcf := ftp_t_not_comp a ha
        rw [hae] at hcf
        rw [hcf] at hc
        exact absurd hc (by simp)
    intro q hq
    exact not_suffix_of_no_occ
      (resolveStyling_no_ejs hok2 hfs2 hstrip2 q hq)

/-- Witness for claim7_materialization on a small react template with
one processable file and one component file. -/
theorem claim7_witness :
    (generateProject cfgReactNoTw reactDemoTmpl [] = .ok (fs3W, [installCommand]) ∧
     (∀ q ∈ pathsOf reactDemoTmpl, occursB ejsText q = true →
       q ∈ filesToProcess) ∧
     (∀ q ∈ pathsOf ([] : FS), occursB ejsText q = false) ∧
     (∀ q ∈ pathsOf reactDemoTmpl ++ pathsOf ([] : FS),
       compDir.isPrefixOf q = true →
       occursB ejsText
         (compDir ++ replaceFirstL tailTag [] (q.drop compDir.length)) = false)) ∧
    ((∀ p ∈ filesToProcess, existsF (copyF [] reactDemoTmpl) p = true →
       lookupF fs3W (targetOf p) =
         some (processTemplate (readFileF (copyF [] reactDemoTmpl) p)
           cfgReactNoTw) ∧
       existsF fs3W p = false) ∧
     (∀ q ∈ pathsOf fs3W, ejsText.isSuffixOf q = false)) :=
  ⟨⟨rfl, by decide, by decide, by decide⟩,
   claim7_materialization cfgReactNoTw reactDemoTmpl [] fs3W [installCommand]
     rfl (by decide) (by decide) (by decide)⟩

/-- C8: when the fixed component directory does not exist after the
copy and substitution steps, generateProject aborts with the
component-directory error during styling-variant resolution, so it
never returns a result and in particular the install trigger (the
command list of a successful run) is never produced. -/
theorem claim8_abort (cfg : PWAConfig) (tmpl dest : FS)
    (h : compDirExists (substitutionPass cfg (copyF dest tmpl)) = false) :
    generateProject cfg tmpl dest = .error .componentDirMissing ∧
    ∀ r : FS × List (List Char), generateProject cfg tmpl dest ≠ .ok r := by
  have h1 : generateProject cfg tmpl dest = .error .componentDirMissing := by
    show (match resolveStyling cfg (substitutionPass cfg (copyF dest tmpl)) with
      | Except.error e => (Except.error e : Except GenError (FS × List (List Char)))
      | Except.ok f => Except.ok (f, [installCommand])) =
        .error .componentDirMissing
    rw [show resolveStyling cfg (substitutionPass cfg (copyF dest tmpl)) =
        .error .componentDirMissing from by
      unfold resolveStyling
      rw [if_pos h]]
  refine ⟨h1, fun r hr => ?_⟩
  rw [h1] at hr
  exact absurd hr (by simp)

/-- Witness for claim8_abort: a template with a processable file but no
component directory makes generateProject fail. -/
theorem claim8_witness :
    compDirExists (substitutionPass cfgVueNoTw (copyF [] vueDemoTmpl)) = false ∧
    (generateProject cfgVueNoTw vueDemoTmpl [] = .error .componentDirMissing ∧
     ∀ r : FS × List (List Char),
       generateProject cfgVueNoTw vueDemoTmpl [] ≠ .ok r) :=
  ⟨by decide, claim8_abort cfgVueNoTw vueDemoTmpl [] (by decide)⟩
